import Mathlib

/-!
Verification development for the TradeList portfolio rebalancing engine
(`portfolio_trades/engine.py`, with `conventions.py` and `apply.py`).

The engine is shallowly embedded over exact rationals (ℚ).  Python floats are
modelled as exact rationals and Python's banker's rounding (`round(x, n)`) as
exact decimal round-half-even; all concrete inputs used below are chosen so
that the float computation is exact, where the two semantics agree.  Holdings
tables and trade lists are modelled as lists of records; pandas group keys are
deduplicated in first-occurrence order (the aggregated contents are order
independent, and no property stated here depends on row order).
-/

namespace TradeList

/-! ### Character and string helpers

Python's `str.upper`, `str.strip`, `str.lower` and substring / regex word
tests, implemented over character lists (ASCII data only in this code base).
-/

/-- Uppercase a string, character by character. -/
def upperStr (s : String) : String := ⟨s.data.map Char.toUpper⟩

/-- Lowercase a string, character by character. -/
def lowerStr (s : String) : String := ⟨s.data.map Char.toLower⟩

/-- Strip leading and trailing whitespace, as Python `str.strip()`. -/
def stripStr (s : String) : String :=
  ⟨((s.data.dropWhile Char.isWhitespace).reverse.dropWhile Char.isWhitespace).reverse⟩

/-- Python `s.upper().strip()` (order is immaterial for ASCII). -/
def upStrip (s : String) : String := stripStr (upperStr s)

/-- List-level test: does `s` start with `pat`? -/
def startsL : List Char → List Char → Bool
  | _, [] => true
  | [], _ :: _ => false
  | a :: as, b :: bs => (a == b) && startsL as bs

/-- List-level substring containment. -/
def hasSubL (s pat : List Char) : Bool :=
  match s with
  | [] => pat.isEmpty
  | _ :: t => startsL s pat || hasSubL t pat

/-- Python `pat in s` substring containment. -/
def hasSub (s pat : String) : Bool := hasSubL s.data pat.data

/-- Regex word character class `\w`: letters, digits and underscore. -/
def isWordChar (c : Char) : Bool := c.isAlphanum || c == '_'

/-- Does a whole-word occurrence of `pat` start at the head of `s`, given that
the position is at a word boundary on the left (`prevOk`)?  Scans `s`. -/
def hasWordAux (pat : List Char) : Bool → List Char → Bool
  | _, [] => false
  | prevOk, c :: t =>
      (prevOk && startsL (c :: t) pat &&
        (match (c :: t).drop pat.length with
         | [] => true
         | d :: _ => !(isWordChar d))) ||
      hasWordAux pat (!(isWordChar c)) t

/-- Regex `\b pat \b` on `s`: `pat` occurs delimited by word boundaries. -/
def hasWord (s pat : String) : Bool := hasWordAux pat.data true s.data

/-! ### Configuration tables, from `portfolio_trades/conventions.py`. -/

/-- Direct symbol to sleeve mapping (`MAP_TO_SLEEVE`). -/
def MAP_TO_SLEEVE : List (String × String) :=
  [("IVW", "US_Growth"), ("VOOG", "US_Growth"), ("AMZN", "US_Growth"),
   ("SCHB", "US_Core"), ("DFAU", "US_Core"), ("SCHM", "US_Core"),
   ("SCHA", "US_SmallValue"), ("VBR", "US_SmallValue"),
   ("IUSV", "US_Value"), ("VTV", "US_Value"), ("VOOV", "US_Value"), ("MGV", "US_Value"),
   ("VXUS", "Intl_DM"), ("VPL", "Intl_DM"), ("FNDF", "Intl_DM"), ("FNDC", "Intl_DM"),
   ("VWO", "EM"), ("EMXC", "EM"), ("FNDE", "EM"), ("TSM", "EM"),
   ("XLE", "Energy"), ("VDE", "Energy"),
   ("AGG", "IG_Core"), ("SCHZ", "IG_Core"),
   ("VWOB", "EM_USD"), ("BNDX", "IG_Intl_Hedged"),
   ("SPAXX", "Cash"), ("FDRXX", "Cash"), ("VMFXX", "Cash"), ("BIL", "Cash")]

/-- Sleeve fallback proxies (`FALLBACK_PROXY`). -/
def FALLBACK_PROXY : List (String × String) :=
  [("US_Core", "SCHB"), ("US_Value", "VTV"), ("US_SmallValue", "VBR"), ("US_Growth", "IVW"),
   ("Intl_DM", "VXUS"), ("EM", "VWO"), ("Energy", "XLE"),
   ("IG_Core", "AGG"), ("Treasuries", "IEF"), ("TIPS", "TIP"),
   ("EM_USD", "VWOB"), ("IG_Intl_Hedged", "BNDX"), ("Cash", "BIL")]

/-- Default tax status for unmatched accounts (`DEFAULT_TAX_STATUS`). -/
def DEFAULT_TAX_STATUS : String := "Taxable"

/-- Cash-like identifiers (`is_cashlike`): membership after uppercasing. -/
def is_cashlike (sym : String) : Bool :=
  ["SPAXX", "VMFXX", "FDRXX", "BIL", "CASH"].contains (upperStr sym)

/-- Illiquid issuer marker test (`is_automattic`). -/
def is_automattic (sym name : String) : Bool :=
  hasSub (upStrip name) "AUTOMATTIC" || (upStrip sym == "AUTOMATTIC")

/-! ### Classifier, from `engine.py`. -/

/-- Account-name tax-status rules (`ACCOUNT_TAX_STATUS_RULES`), first match
wins; the three regexes reduce to the word / substring tests below. -/
def assign_tax_status (acct : String) : String :=
  let low := lowerStr acct
  if hasWord low "roth" || hasSub low "vanguard roth" || hasSub low "schwab roth" then
    "ROTH IRA"
  else if hasWord low "hsa" || hasSub low "fidelity hsa" then "HSA"
  else if hasWord low "trust" then "Trust"
  else DEFAULT_TAX_STATUS

/-- Sleeve classifier `map_sleeve(sym, name)` from `engine.py`. -/
def map_sleeve (sym name : String) : String :=
  let s := upStrip sym
  let n := upStrip name
  if is_automattic s n then "Illiquid_Automattic"
  else
    match List.lookup s MAP_TO_SLEEVE with
    | some v => v
    | none =>
        if hasSub n "INFLATION" then "TIPS"
        else if hasSub n "UST" || hasSub n "TREAS" || hasSub n "STRIP" then "Treasuries"
        else "US_Core"

/-- Estimated long-term capital-gains tax rate by status (`tax_rate_for_status`,
with the `EST_TAX_RATE` table inlined at its two reachable keys). -/
def tax_rate_for_status (status : String) : ℚ :=
  let s := lowerStr status
  if hasSub s "hsa" || hasSub s "roth" then 0
  else if hasSub s "taxable" then 15 / 100
  else if hasSub s "trust" then 20 / 100
  else 0

/-! ### Exact decimal rounding, modelling Python `round(x, d)`. -/

/-- Round-half-even to the nearest integer. -/
def roundHalfEven (q : ℚ) : ℤ :=
  let f : ℤ := Rat.floor q
  let r : ℚ := q - (f : ℚ)
  if r < 1 / 2 then f
  else if 1 / 2 < r then f + 1
  else if f % 2 = 0 then f else f + 1

/-- Round to `d` decimal places, half to even. -/
def roundTo (q : ℚ) (d : ℕ) : ℚ :=
  ((roundHalfEven (q * (10 : ℚ) ^ d) : ℚ)) / (10 : ℚ) ^ d

/-- Share rounding `_round_shares(dollars, px, ident)`: reject non-positive
prices; cash-like identifiers round to 0.01 shares, others to 0.1. -/
def round_shares (dollars px : ℚ) (ident : String) : ℚ :=
  if px ≤ 0 then 0
  else roundTo (dollars / px) (if is_cashlike ident then 2 else 1)

/-! ### Small list utilities. -/

/-- Stable insertion into a list by a boolean `le`. -/
def insertLe {α : Type} (le : α → α → Bool) (a : α) : List α → List α
  | [] => [a]
  | b :: bs => if le a b then a :: b :: bs else b :: insertLe le a bs

/-- Insertion sort by a boolean `le`. -/
def sortByLe {α : Type} (le : α → α → Bool) (l : List α) : List α :=
  l.foldr (insertLe le) []

/-- Append an element unless already present: first-occurrence dedup. -/
def insOnce {α : Type} [DecidableEq α] (a : α) (l : List α) : List α :=
  if a ∈ l then l else l ++ [a]

/-- Deduplicate keeping first occurrences, in order. -/
def dedupOnce {α : Type} [DecidableEq α] (l : List α) : List α :=
  l.foldl (fun acc x => insOnce x acc) []

/-- Strict character-list lexicographic order on code points. -/
def strLtL : List Char → List Char → Bool
  | [], [] => false
  | [], _ :: _ => true
  | _ :: _, [] => false
  | a :: as, b :: bs =>
      if a.toNat < b.toNat then true
      else if b.toNat < a.toNat then false
      else strLtL as bs

/-- Strict string order (code-point lexicographic, as pandas sorts). -/
def strLt (a b : String) : Bool := strLtL a.data b.data

/-- Non-strict string order. -/
def strLe (a b : String) : Bool := !(strLt b a)

/-- Sorted list of the distinct elements of a string list. -/
def sortedDedupStr (l : List String) : List String := sortByLe strLe (dedupOnce l)

/-- First element maximising `f`, as pandas `idxmax` over a sorted index. -/
def argmaxFirst {α : Type} (f : α → ℚ) : List α → Option α
  | [] => none
  | x :: xs => some (xs.foldl (fun b y => if f b < f y then y else b) x)

/-- Median of a list of rationals, as pandas `Series.median` (mean of the two
middle elements for an even count); 0 for the empty list (never queried). -/
def medianQ (l : List ℚ) : ℚ :=
  let s := sortByLe (fun a b => decide (a ≤ b)) l
  let n := s.length
  if n = 0 then 0
  else if n % 2 = 1 then s.getD (n / 2) 0
  else (s.getD (n / 2 - 1) 0 + s.getD (n / 2) 0) / 2

/-! ### Data model

`HoldingIn` is a raw holdings row as consumed by
`build_trades_and_afterholdings`; an `Option` field models a value that the
input table may omit (or hold as NaN / blank), in which case the engine
derives it.  `Row` is a row after the engine's input-normalisation stage.
-/

/-- Raw holdings input row. -/
structure HoldingIn where
  account : String
  name : String
  symbol : String
  quantity : ℚ
  price : ℚ
  averageCost : ℚ
  value? : Option ℚ := none
  cost? : Option ℚ := none
  taxStatus? : Option String := none
  sleeve? : Option String := none
deriving Repr, DecidableEq

/-- Normalised holdings row (Value / Cost / TaxStatus / Sleeve filled in,
`illq` caching `is_automattic`; the trade identifier is the symbol). -/
structure Row where
  account : String
  name : String
  symbol : String
  quantity : ℚ
  price : ℚ
  averageCost : ℚ
  value : ℚ
  cost : ℚ
  taxStatus : String
  sleeve : String
  illq : Bool
deriving Repr, DecidableEq

/-- Trade row as returned by the engine. -/
structure Trade where
  account : String
  taxStatus : String
  identifier : String
  sleeve : String
  action : String
  sharesDelta : ℚ
  price : ℚ
  averageCost : ℚ
  deltaDollars : ℚ
  capGain : ℚ
deriving Repr, DecidableEq

/-- Input normalisation: numeric coercion, Value / Cost derivation, TaxStatus
defaulting and Sleeve mapping (engine lines 95-139). -/
def normalizeRow (h : HoldingIn) : Row :=
  { account := h.account
    name := h.name
    symbol := h.symbol
    quantity := h.quantity
    price := h.price
    averageCost := h.averageCost
    value := h.value?.getD (h.quantity * h.price)
    cost := h.cost?.getD (h.quantity * h.averageCost)
    taxStatus :=
      match h.taxStatus? with
      | some t => if stripStr t = "" then assign_tax_status h.account else t
      | none => assign_tax_status h.account
    sleeve :=
      match h.sleeve? with
      | some s => if stripStr s = "" then map_sleeve h.symbol h.name else s
      | none => map_sleeve h.symbol h.name
    illq := is_automattic h.symbol h.name }

/-- Normalised holdings table. -/
def rowsOf (hs : List HoldingIn) : List Row := hs.map normalizeRow

/-! ### Per-table aggregates (engine lines 141-258). -/

/-- Prices of all rows bearing an identifier, portfolio-wide. -/
def identPrices (rows : List Row) (ident : String) : List ℚ :=
  (rows.filter (fun r => decide (r.symbol = ident))).map (·.price)

/-- Median price per identifier (`price_map`), with `default` for an
identifier that no row bears (the `dict.get` default). -/
def priceFor (rows : List Row) (ident : String) (default : ℚ) : ℚ :=
  let l := identPrices rows ident
  if l.isEmpty then default else medianQ l

/-- Quantity-weighted average cost per (account, identifier)
(`acct_ident_cost`); 0 when total shares are not positive or no row exists. -/
def avgCostOf (rows : List Row) (a i : String) : ℚ :=
  let g := rows.filter (fun r => decide (r.account = a ∧ r.symbol = i))
  let totSh := (g.map (·.quantity)).sum
  if 0 < totSh then (g.map (fun r => r.averageCost * r.quantity)).sum / totSh else 0

/-- Total shares held for an identifier in an account. -/
def heldQty (rows : List Row) (a i : String) : ℚ :=
  ((rows.filter (fun r => decide (r.account = a ∧ r.symbol = i))).map (·.quantity)).sum

/-- Account total value (`acct_total_val`). -/
def acctTotalVal (rows : List Row) (a : String) : ℚ :=
  ((rows.filter (fun r => decide (r.account = a))).map (·.value)).sum

/-- Account illiquid value (`acct_illq_val`). -/
def acctIllqVal (rows : List Row) (a : String) : ℚ :=
  ((rows.filter (fun r => decide (r.account = a ∧ r.illq = true))).map (·.value)).sum

/-- Investable dollars per account (`acct_investable`), clipped at 0. -/
def acctInvestable (rows : List Row) (a : String) : ℚ :=
  max 0 (acctTotalVal rows a - acctIllqVal rows a)

/-- Sorted distinct account names, as the pandas groupby index. -/
def accountsOf (rows : List Row) : List String :=
  sortedDedupStr (rows.map (·.account))

/-- Portfolio-wide investable total. -/
def totalInvestable (rows : List Row) : ℚ :=
  ((accountsOf rows).map (acctInvestable rows)).sum

/-- Non-illiquid dollar exposure of an account to a sleeve
(`cur_acct_sleeve`, and the holder exposures used to pick a buy host). -/
def exposure (rows : List Row) (a s : String) : ℚ :=
  ((rows.filter (fun r => decide (r.account = a ∧ r.sleeve = s ∧ r.illq = false))).map
    (·.value)).sum

/-- Account share of the investable total (`investable_share`). -/
def invShare (rows : List Row) (a : String) : ℚ :=
  if 0 < totalInvestable rows then acctInvestable rows a / totalInvestable rows else 0

/-- First tax status recorded for an account (`acct_tax_status`), with the
`assign_tax_status` fallback used by `dict.get` for unseen accounts. -/
def acctTaxStat (rows : List Row) (a : String) : String :=
  match rows.find? (fun r => decide (r.account = a)) with
  | some r => r.taxStatus
  | none => assign_tax_status a

/-- Largest-value identifier held in an (account, sleeve) bucket
(`acct_sleeve_ident`): idents grouped and summed, first maximum in sorted
ident order. -/
def acctSleeveIdent (rows : List Row) (a s : String) : Option String :=
  let idents := sortedDedupStr
    ((rows.filter (fun r => decide (r.account = a ∧ r.sleeve = s))).map (·.symbol))
  argmaxFirst
    (fun i =>
      ((rows.filter (fun r => decide (r.account = a ∧ r.sleeve = s ∧ r.symbol = i))).map
        (·.value)).sum)
    idents

/-- Identifier used to trade a sleeve in an account (`pick_ident`): the
largest held ident if truthy, else the sleeve's fallback proxy. -/
def pickIdent (rows : List Row) (a s : String) : Option String :=
  match acctSleeveIdent rows a s with
  | some i => if i = "" then List.lookup s FALLBACK_PROXY else some i
  | none => List.lookup s FALLBACK_PROXY

/-! ### Target weights and per-(account, sleeve) deltas (lines 171-239). -/

/-- Target weights after dropping the illiquid sleeve and clipping at 0
(engine lines 172-175); association-list order preserved. -/
def clipWeights (Win : List (String × ℚ)) : List (String × ℚ) :=
  (Win.filter (fun p => decide (p.1 ≠ "Illiquid_Automattic"))).map (fun p => (p.1, max 0 p.2))

/-- Normalised weight of a sleeve (weights divided by their sum); target
tables carry each sleeve at most once, so `List.lookup` is the Series value. -/
def weightOf (W : List (String × ℚ)) (s : String) : ℚ :=
  ((List.lookup s W).getD 0)

/-- Target dollars for a sleeve, portfolio-wide (`sleeve_target_dollars`). -/
def targetD (rows : List Row) (W : List (String × ℚ)) (s : String) : ℚ :=
  weightOf W s * totalInvestable rows

/-- Desired minus current dollars for an (account, sleeve) cell
(`acct_sleeve_delta`). -/
def deltaAS (rows : List Row) (W : List (String × ℚ)) (s a : String) : ℚ :=
  targetD rows W s * invShare rows a - exposure rows a s

/-- Sleeves iterated by the trade loop (`sleeve_accounts`): the sorted
distinct sleeves of the (account, sleeve) index, which is empty when there
are no accounts; the illiquid sleeve is skipped (line 261). -/
def sleevesListOf (rows : List Row) (W : List (String × ℚ)) : List String :=
  if accountsOf rows = [] then []
  else (sortedDedupStr (W.map (·.1))).filter (fun s => decide (s ≠ "Illiquid_Automattic"))

/-- Buy host for a sleeve (lines 269-280): the first account with maximal
sleeve exposure when some account has positive exposure, else the first
account with maximal investable dollars.  In the source the `holders.empty`
else-branch is unreachable: when no non-illiquid row carries the sleeve,
`cur_acct_sleeve.xs` at line 270 raises (KeyError, or TypeError on the empty
flat Series) before it.  That exception path is modelled separately by
`engineRaises` and `build_trades_checked`; this total function agrees with
the source on every run that completes, where the investable fallback is
reached only with holders present but none positive. -/
def hostAcct (rows : List Row) (s : String) : Option String :=
  if (accountsOf rows).any (fun a => decide (0 < exposure rows a s)) then
    argmaxFirst (fun a => exposure rows a s) (accountsOf rows)
  else argmaxFirst (acctInvestable rows) (accountsOf rows)

/-- Accounts with positive delta for a sleeve, sorted by delta descending
(`pos`); the base index order is account-ascending. -/
def posAccts (rows : List Row) (W : List (String × ℚ)) (s : String) : List String :=
  sortByLe (fun a b => decide (deltaAS rows W s b ≤ deltaAS rows W s a))
    ((accountsOf rows).filter (fun a => decide (0 < deltaAS rows W s a)))

/-- Accounts with negative delta for a sleeve, sorted by delta ascending
(`neg`). -/
def negAccts (rows : List Row) (W : List (String × ℚ)) (s : String) : List String :=
  sortByLe (fun a b => decide (deltaAS rows W s a ≤ deltaAS rows W s b))
    ((accountsOf rows).filter (fun a => decide (deltaAS rows W s a < 0)))

/-- Total buy dollars pooled for a sleeve (`total_buy_dollars`). -/
def totalBuyD (rows : List Row) (W : List (String × ℚ)) (s : String) : ℚ :=
  ((posAccts rows W s).map (deltaAS rows W s)).sum

/-! ### Trade generation per sleeve (engine lines 286-368). -/

/-- Consolidated BUY for a sleeve (lines 287-309): all pooled buy dollars go
to the host account, provided an identifier with a positive price resolves
and the rounded share count is positive. -/
def buyFor (rows : List Row) (W : List (String × ℚ)) (s : String) : Option Trade :=
  match hostAcct rows s with
  | none => none
  | some h =>
      if posAccts rows W s = [] then none
      else
        match pickIdent rows h s with
        | none => none
        | some i =>
            if i = "" then none
            else
              let px := priceFor rows i 0
              if 0 < px then
                let sh := round_shares (totalBuyD rows W s) px i
                if 0 < sh then
                  some
                    { account := h
                      taxStatus := acctTaxStat rows h
                      identifier := i
                      sleeve := s
                      action := "BUY"
                      sharesDelta := sh
                      price := px
                      averageCost := avgCostOf rows h i
                      deltaDollars := sh * px
                      capGain := 0 }
                else none
              else none

/-- Sell-side candidate tuple (lines 317-338). -/
structure SellC where
  acct : String
  d : ℚ
  ident : String
  px : ℚ
  held : ℚ
  avgc : ℚ
  gpd : ℚ
  rate : ℚ
deriving Repr, DecidableEq

/-- Build the sell candidate for one negative-delta account, skipping
unresolvable idents, non-positive prices and empty positions. -/
def sellCand (rows : List Row) (W : List (String × ℚ)) (s a : String) : Option SellC :=
  let d := deltaAS rows W s a
  match pickIdent rows a s with
  | none => none
  | some i =>
      if i = "" then none
      else
        let px := priceFor rows i 0
        if px ≤ 0 then none
        else
          let held := heldQty rows a i
          if held ≤ 0 ∧ d < 0 then none
          else
            let avgc := avgCostOf rows a i
            some
              { acct := a, d := d, ident := i, px := px, held := held, avgc := avgc
                gpd := max 0 ((px - avgc) / px)
                rate := tax_rate_for_status (acctTaxStat rows a) }

/-- Sell candidates for a sleeve, sorted by (tax rate, gain per dollar)
ascending (line 341; Python's sort is stable). -/
def sellCands (rows : List Row) (W : List (String × ℚ)) (s : String) : List SellC :=
  sortByLe
    (fun x y => decide (x.rate < y.rate ∨ (x.rate = y.rate ∧ x.gpd ≤ y.gpd)))
    ((negAccts rows W s).filterMap (sellCand rows W s))

/-- SELL trade from a candidate (lines 343-368): dollars to shares, capped at
held shares, capital gain floored at zero when price does not exceed cost. -/
def mkSell (s : String) (rows : List Row) (c : SellC) : Option Trade :=
  let need := |c.d|
  if need ≤ 0 then none
  else
    let sh := round_shares need c.px c.ident
    let cap := min sh (max 0 c.held)
    if cap ≤ 0 then none
    else
      some
        { account := c.acct
          taxStatus := acctTaxStat rows c.acct
          identifier := c.ident
          sleeve := s
          action := "SELL"
          sharesDelta := -cap
          price := c.px
          averageCost := c.avgc
          deltaDollars := -cap * c.px
          capGain := if c.avgc < c.px then (c.px - c.avgc) * cap else 0 }

/-- SELL trades emitted for a sleeve. -/
def sellsFor (rows : List Row) (W : List (String × ℚ)) (s : String) : List Trade :=
  (sellCands rows W s).filterMap (mkSell s rows)

/-- All raw trades emitted for one sleeve: the pooled buy then the sells. -/
def sleeveTrades (rows : List Row) (W : List (String × ℚ)) (s : String) : List Trade :=
  (buyFor rows W s).toList ++ sellsFor rows W s

/-- Raw trade list over all sleeves (`trades`, lines 246-368). -/
def rawTrades (rows : List Row) (W : List (String × ℚ)) : List Trade :=
  (sleevesListOf rows W).flatMap (sleeveTrades rows W)

/-! ### Consolidation (lines 381-392 and 436-446). -/

/-- Consolidation group key. -/
structure TKey where
  account : String
  taxStatus : String
  identifier : String
  sleeve : String
deriving Repr, DecidableEq

/-- Group key of a trade. -/
def keyOf (t : Trade) : TKey :=
  { account := t.account, taxStatus := t.taxStatus, identifier := t.identifier
    sleeve := t.sleeve }

/-- Distinct group keys of a trade list, in first-occurrence order. -/
def keysOf (ts : List Trade) : List TKey := dedupOnce (ts.map keyOf)

/-- Last element of a list, with a default for the (unreached) empty case. -/
def lastD {α : Type} : List α → α → α
  | [], d => d
  | [x], _ => x
  | _ :: y :: t, d => lastD (y :: t) d

/-- Aggregated row for one group key: share / dollar / gain columns summed,
price and average cost taking the last leg, and Action recomputed from the
net share delta (BUY when non-negative). -/
def rowFor (ts : List Trade) (k : TKey) : Trade :=
  let g := ts.filter (fun t => decide (keyOf t = k))
  let sh := (g.map (·.sharesDelta)).sum
  { account := k.account
    taxStatus := k.taxStatus
    identifier := k.identifier
    sleeve := k.sleeve
    action := if 0 ≤ sh then "BUY" else "SELL"
    sharesDelta := sh
    price := lastD (g.map (·.price)) 0
    averageCost := lastD (g.map (·.averageCost)) 0
    deltaDollars := (g.map (·.deltaDollars)).sum
    capGain := (g.map (·.capGain)).sum }

/-- Consolidate duplicate (Account, TaxStatus, Identifier, Sleeve) rows. -/
def consolidate (ts : List Trade) : List Trade := (keysOf ts).map (rowFor ts)

/-! ### Cash balancing (lines 394-446). -/

/-- Cash-like identifier for an account (`pick_cash_ident_for_account`):
first cash-like ident held there, else the configured cash fallback. -/
def cashIdentFor (rows : List Row) (a : String) : String :=
  match (rows.filter (fun r => decide (r.account = a))).find?
      (fun r => is_cashlike r.symbol) with
  | some r => r.symbol
  | none => "BIL"

/-- Net dollar flow of an account over a trade list. -/
def flowOf (ts : List Trade) (a : String) : ℚ :=
  ((ts.filter (fun t => decide (t.account = a))).map (·.deltaDollars)).sum

/-- Accounts appearing in a trade list (sorted distinct). -/
def txAccounts (ts : List Trade) : List String := sortedDedupStr (ts.map (·.account))

/-- Corrective cash trade for one account whose flow exceeds the tolerance. -/
def cashRowFor (rows : List Row) (ts : List Trade) (ctol : ℚ) (a : String) : Option Trade :=
  let flow := flowOf ts a
  if |flow| ≤ ctol then none
  else
    let ci := cashIdentFor rows a
    let px0 := priceFor rows ci 1
    let px := if px0 ≤ 0 then 1 else px0
    let sh := round_shares (-flow) px ci
    if sh = 0 then none
    else
      some
        { account := a
          taxStatus := acctTaxStat rows a
          identifier := ci
          sleeve := "Cash"
          action := if 0 < sh then "BUY" else "SELL"
          sharesDelta := sh
          price := px
          averageCost := 0
          deltaDollars := sh * px
          capGain := 0 }

/-- Corrective cash trades (`add_cash_rows`). -/
def cashRowsOf (rows : List Row) (ts : List Trade) (ctol : ℚ) : List Trade :=
  (txAccounts ts).filterMap (cashRowFor rows ts ctol)

/-! ### Holdings projection and residuals (lines 448-508). -/

/-- Net share delta per (account, identifier) over the final trade list. -/
def deltaKey (ts : List Trade) (a i : String) : ℚ :=
  ((ts.filter (fun t => decide (t.account = a ∧ t.identifier = i))).map (·.sharesDelta)).sum

/-- Placeholder row synthesised for a traded (account, identifier) pair not
previously held (lines 458-493): sleeve from another holder of the ident,
else the proxy reverse map, else the default sleeve. -/
def synthRow (rows : List Row) (a i : String) : Row :=
  let sleeve :=
    match rows.find? (fun r => decide (r.symbol = i)) with
    | some r => r.sleeve
    | none =>
        match List.lookup i (FALLBACK_PROXY.map (fun p => (p.2, p.1))) with
        | some s => s
        | none => "US_Core"
  let px0 := priceFor rows i 1
  let px := if px0 ≤ 0 then 1 else px0
  { account := a, name := i, symbol := i, quantity := 0, price := px
    averageCost := 0, value := 0, cost := 0
    taxStatus := acctTaxStat rows a, sleeve := sleeve, illq := false }

/-- Holdings-after construction (lines 448-500): synthesise missing rows,
apply share deltas, drop dust rows (|Quantity| ≤ 1e-9) and recompute Value
and Cost. -/
def afterOf (rows : List Row) (ts : List Trade) : List Row :=
  let tradedKeys := dedupOnce (ts.map (fun t => (t.account, t.identifier)))
  let needKeys := tradedKeys.filter
    (fun p => !(rows.any (fun r => decide (r.account = p.1 ∧ r.symbol = p.2))))
  let synth := needKeys.map (fun p => synthRow rows p.1 p.2)
  let applied := (rows ++ synth).map
    (fun r => { r with quantity := r.quantity + deltaKey ts r.account r.symbol })
  (applied.filter (fun r => decide ((1 : ℚ) / 10 ^ 9 < |r.quantity|))).map
    (fun r => { r with value := r.quantity * r.price, cost := r.quantity * r.averageCost })

/-- Residual flows exceeding the tolerance after balancing (lines 502-508). -/
def residualsOf (ts : List Trade) (ctol : ℚ) : List (String × ℚ) :=
  (txAccounts ts).filterMap
    (fun a => let f := flowOf ts a; if ctol < |f| then some (a, f) else none)

/-! ### The engine (`build_trades_and_afterholdings`). -/

/-- Normalised target weights (engine line 184), defined when the clipped
sum is positive. -/
def normW (Win : List (String × ℚ)) : List (String × ℚ) :=
  let W1 := clipWeights Win
  let sW := (W1.map (·.2)).sum
  W1.map (fun p => (p.1, p.2 / sW))

/-- Final consolidated trade list (consolidation, cash balancing and, when
cash rows were added, re-consolidation; lines 381-446). -/
def txMain (rows : List Row) (W2 : List (String × ℚ)) (ctol : ℚ) : List Trade :=
  let tx1 := consolidate (rawTrades rows W2)
  let cash := cashRowsOf rows tx1 ctol
  if cash = [] then tx1 else consolidate (tx1 ++ cash)

/-- Result of `build_trades_and_afterholdings`: the consolidated trade list,
the holdings-after table and the residuals map. -/
def build_trades_and_afterholdings (hs : List HoldingIn) (Win : List (String × ℚ))
    (ctol : ℚ) : List Trade × List Row × List (String × ℚ) :=
  let rows := rowsOf hs
  let sW : ℚ := ((clipWeights Win).map (·.2)).sum
  if sW ≤ 0 then ([], rows, [])
  else
    let W2 := normW Win
    if rawTrades rows W2 = [] then ([], rows, [])
    else
      let tx2 := txMain rows W2 ctol
      (tx2, afterOf rows tx2, residualsOf tx2 ctol)

/-- Trade list of a run. -/
def txOf (hs : List HoldingIn) (Win : List (String × ℚ)) (ctol : ℚ) : List Trade :=
  (build_trades_and_afterholdings hs Win ctol).1

/-- Holdings-after of a run. -/
def afterHoldings (hs : List HoldingIn) (Win : List (String × ℚ)) (ctol : ℚ) : List Row :=
  (build_trades_and_afterholdings hs Win ctol).2.1

/-- Residuals of a run. -/
def residuals (hs : List HoldingIn) (Win : List (String × ℚ)) (ctol : ℚ) :
    List (String × ℚ) :=
  (build_trades_and_afterholdings hs Win ctol).2.2

/-- Is a sleeve carried by at least one non-illiquid holdings row?  These
are exactly the sleeves present in the `cur_acct_sleeve` group index. -/
def sleeveHeld (rows : List Row) (s : String) : Bool :=
  rows.any (fun r => decide (r.sleeve = s ∧ r.illq = false))

/-- Exception predicate for the sleeve loop: after the weight check passes,
`cur_acct_sleeve.xs(sleeve, level="Sleeve")` at engine line 270 raises
(KeyError on a missing MultiIndex key, TypeError on the empty flat Series)
for the first iterated target sleeve that no non-illiquid row carries; the
loop reaches that line for every iterated sleeve, since `sub` is non-empty
whenever an account exists.  A run raises exactly when this is `true`. -/
def engineRaises (hs : List HoldingIn) (Win : List (String × ℚ)) : Bool :=
  let rows := rowsOf hs
  if ((clipWeights Win).map (·.2)).sum ≤ (0 : ℚ) then false
  else (sleevesListOf rows (normW Win)).any (fun s => !(sleeveHeld rows s))

/-- Run of `build_trades_and_afterholdings` with the un-handled exception of
engine line 270 made explicit: the error value when the sleeve loop raises,
else the completed result. -/
def build_trades_checked (hs : List HoldingIn) (Win : List (String × ℚ)) (ctol : ℚ) :
    Except String (List Trade × List Row × List (String × ℚ)) :=
  if engineRaises hs Win = true then
    Except.error "cur_acct_sleeve.xs: sleeve not held by any non-illiquid row"
  else Except.ok (build_trades_and_afterholdings hs Win ctol)

/-! ### `apply_trades_to_holdings` from `portfolio_trades/apply.py`.

Modelled at the record level (the transient `_key` bookkeeping column is not
part of the record).  Placeholder rows synthesised for unheld traded pairs
carry blank tax status, the default sleeve and zero price; only Value is
recomputed (apply.py does not touch Cost), and rows with |Quantity| ≤ 1e-6
are dropped.
-/

/-- Shallow embedding of `apply_trades_to_holdings(holdings, trades)`. -/
def apply_trades_to_holdings (holdings : List Row) (trades : List Trade) : List Row :=
  if trades = [] then holdings
  else
    let tradedKeys := dedupOnce (trades.map (fun t => (t.account, t.identifier)))
    let needKeys := tradedKeys.filter
      (fun p => !(holdings.any (fun r => decide (r.account = p.1 ∧ r.symbol = p.2))))
    let synth := needKeys.map (fun p =>
      ({ account := p.1, name := p.2, symbol := p.2, quantity := 0, price := 0
         averageCost := 0, value := 0, cost := 0, taxStatus := ""
         sleeve := "US_Core", illq := false } : Row))
    let applied := (holdings ++ synth).map
      (fun r =>
        let sh := deltaKey trades r.account r.symbol
        if sh ≠ 0 then { r with quantity := r.quantity + sh,
                                value := (r.quantity + sh) * r.price }
        else r)
    (applied.filter (fun r => decide ((1 : ℚ) / 10 ^ 6 < |r.quantity|))).map
      (fun r => { r with value := r.quantity * r.price })

/-! ### Utility lemmas. -/

lemma mem_insOnce {α : Type} [DecidableEq α] {a b : α} {l : List α} :
    a ∈ insOnce b l ↔ a = b ∨ a ∈ l := by
  unfold insOnce
  split
  · constructor
    · exact fun h => Or.inr h
    · rintro (rfl | h) <;> [assumption; assumption]
  · simp [or_comm]

lemma nodup_insOnce {α : Type} [DecidableEq α] {a : α} {l : List α} (h : l.Nodup) :
    (insOnce a l).Nodup := by
  unfold insOnce
  split
  · exact h
  · next hna =>
      exact h.append (List.nodup_singleton a)
        (fun b hb hba => hna ((List.mem_singleton.mp hba) ▸ hb))

lemma nodup_dedupOnce {α : Type} [DecidableEq α] (l : List α) : (dedupOnce l).Nodup := by
  unfold dedupOnce
  suffices H : ∀ (acc : List α), acc.Nodup → (l.foldl (fun acc x => insOnce x acc) acc).Nodup by
    exact H [] List.nodup_nil
  induction l with
  | nil => exact fun acc h => h
  | cons x t ih => exact fun acc h => ih _ (nodup_insOnce h)

lemma mem_dedupOnce {α : Type} [DecidableEq α] {a : α} {l : List α} :
    a ∈ dedupOnce l ↔ a ∈ l := by
  unfold dedupOnce
  suffices H : ∀ (acc : List α), a ∈ l.foldl (fun acc x => insOnce x acc) acc ↔ a ∈ acc ∨ a ∈ l by
    simpa using H []
  induction l with
  | nil => simp
  | cons x t ih =>
      intro acc
      simp only [List.foldl_cons, ih, mem_insOnce, List.mem_cons]
      tauto

lemma insertLe_perm {α : Type} (le : α → α → Bool) (a : α) (l : List α) :
    List.Perm (insertLe le a l) (a :: l) := by
  induction l with
  | nil => exact List.Perm.refl _
  | cons b bs ih =>
      unfold insertLe
      split
      · exact List.Perm.refl _
      · exact (List.Perm.cons b ih).trans (List.Perm.swap a b bs)

lemma sortByLe_perm {α : Type} (le : α → α → Bool) (l : List α) :
    List.Perm (sortByLe le l) l := by
  induction l with
  | nil => exact List.Perm.refl _
  | cons x t ih =>
      have h1 : sortByLe le (x :: t) = insertLe le x (sortByLe le t) := rfl
      rw [h1]
      exact (insertLe_perm le x _).trans (List.Perm.cons x ih)

lemma mem_sortByLe {α : Type} {le : α → α → Bool} {a : α} {l : List α} :
    a ∈ sortByLe le l ↔ a ∈ l := (sortByLe_perm le l).mem_iff

lemma nodup_sortByLe {α : Type} {le : α → α → Bool} {l : List α} (h : l.Nodup) :
    (sortByLe le l).Nodup := ((sortByLe_perm le l).nodup_iff).mpr h

lemma pairwise_sortByLe {α : Type} {le : α → α → Bool} {R : α → α → Prop}
    (hR : Symmetric R) {l : List α} (h : l.Pairwise R) : (sortByLe le l).Pairwise R :=
  (List.Perm.pairwise_iff (fun hab => hR hab) (sortByLe_perm le l)).mpr h

lemma mem_sortedDedupStr {a : String} {l : List String} :
    a ∈ sortedDedupStr l ↔ a ∈ l := by
  unfold sortedDedupStr
  rw [mem_sortByLe, mem_dedupOnce]

lemma nodup_sortedDedupStr (l : List String) : (sortedDedupStr l).Nodup :=
  nodup_sortByLe (nodup_dedupOnce l)

lemma argmaxFold_mem {α : Type} (f : α → ℚ) (xs : List α) (b : α) :
    xs.foldl (fun b y => if f b < f y then y else b) b = b ∨
      xs.foldl (fun b y => if f b < f y then y else b) b ∈ xs := by
  induction xs generalizing b with
  | nil => exact Or.inl rfl
  | cons y ys ih =>
      simp only [List.foldl_cons]
      rcases ih (b := if f b < f y then y else b) with h | h
      · rw [h]
        split
        · exact Or.inr (by simp)
        · exact Or.inl rfl
      · exact Or.inr (by simp [h])

lemma argmaxFold_le {α : Type} (f : α → ℚ) (xs : List α) (b : α) :
    f b ≤ f (xs.foldl (fun b y => if f b < f y then y else b) b) ∧
      ∀ y ∈ xs, f y ≤ f (xs.foldl (fun b y => if f b < f y then y else b) b) := by
  induction xs generalizing b with
  | nil => exact ⟨le_refl _, by simp⟩
  | cons y ys ih =>
      simp only [List.foldl_cons]
      have hb : f b ≤ f (if f b < f y then y else b) := by
        split
        · next hlt => exact le_of_lt hlt
        · exact le_refl _
      have hy : f y ≤ f (if f b < f y then y else b) := by
        split
        · exact le_refl _
        · next hge => exact le_of_not_lt hge
      obtain ⟨h1, h2⟩ := ih (b := if f b < f y then y else b)
      refine ⟨le_trans hb h1, ?_⟩
      intro z hz
      rcases List.mem_cons.mp hz with rfl | hz
      · exact le_trans hy h1
      · exact h2 z hz

lemma argmaxFirst_mem {α : Type} {f : α → ℚ} {l : List α} {x : α}
    (h : argmaxFirst f l = some x) : x ∈ l := by
  cases l with
  | nil => simp [argmaxFirst] at h
  | cons y ys =>
      simp only [argmaxFirst, Option.some.injEq] at h
      subst h
      rcases argmaxFold_mem f ys y with h | h
      · rw [h]; simp
      · simp [h]

lemma argmaxFirst_le {α : Type} {f : α → ℚ} {l : List α} {x : α}
    (h : argmaxFirst f l = some x) : ∀ y ∈ l, f y ≤ f x := by
  cases l with
  | nil => simp [argmaxFirst] at h
  | cons y ys =>
      simp only [argmaxFirst, Option.some.injEq] at h
      subst h
      obtain ⟨h1, h2⟩ := argmaxFold_le f ys y
      intro z hz
      rcases List.mem_cons.mp hz with rfl | hz
      · exact h1
      · exact h2 z hz

lemma argmaxFirst_isSome {α : Type} {f : α → ℚ} {l : List α} (h : l ≠ []) :
    ∃ x, argmaxFirst f l = some x := by
  cases l with
  | nil => exact absurd rfl h
  | cons y ys => exact ⟨_, rfl⟩

lemma flatMap_eq_nil_of {α β : Type} {l : List α} {g : α → List β}
    (h : ∀ a ∈ l, g a = []) : l.flatMap g = [] := by
  induction l with
  | nil => rfl
  | cons x t ih =>
      simp only [List.flatMap_cons, h x (by simp), List.nil_append]
      exact ih (fun a ha => h a (by simp [ha]))

lemma flatMap_eq_single {α β : Type} {l : List α} {g : α → List β} {s : α}
    (hnd : l.Nodup) (hs : s ∈ l) (h : ∀ a ∈ l, a ≠ s → g a = []) :
    l.flatMap g = g s := by
  induction l with
  | nil => simp at hs
  | cons x t ih =>
      rcases List.mem_cons.mp hs with rfl | hst
      · have : t.flatMap g = [] := by
          refine flatMap_eq_nil_of (fun a ha => h a (by simp [ha]) ?_)
          rintro rfl
          exact (List.nodup_cons.mp hnd).1 ha
        simp [List.flatMap_cons, this]
      · have hx : g x = [] := by
          refine h x (by simp) ?_
          rintro rfl
          exact (List.nodup_cons.mp hnd).1 hst
        simp only [List.flatMap_cons, hx, List.nil_append]
        exact ih (List.nodup_cons.mp hnd).2 hst (fun a ha => h a (by simp [ha]))

lemma filter_flatMap {α β : Type} (l : List α) (g : α → List β) (p : β → Bool) :
    (l.flatMap g).filter p = l.flatMap (fun a => (g a).filter p) := by
  induction l with
  | nil => rfl
  | cons x t ih => simp [List.flatMap_cons, List.filter_append, ih]

lemma all_zero_of_sum_nonpos {l : List ℚ} (h0 : ∀ x ∈ l, 0 ≤ x) (hs : l.sum ≤ 0) :
    ∀ x ∈ l, x = 0 := by
  induction l with
  | nil => simp
  | cons x t ih =>
      have hx : 0 ≤ x := h0 x (by simp)
      have ht : 0 ≤ t.sum := List.sum_nonneg (fun y hy => h0 y (by simp [hy]))
      rw [List.sum_cons] at hs
      have hx0 : x = 0 := le_antisymm (by linarith) hx
      have hts : t.sum ≤ 0 := by linarith
      intro y hy
      rcases List.mem_cons.mp hy with rfl | hy
      · exact hx0
      · exact ih (fun z hz => h0 z (by simp [hz])) hts y hy

lemma lastD_mem {α : Type} (d : α) {l : List α} (h : l ≠ []) : lastD l d ∈ l := by
  induction l with
  | nil => exact absurd rfl h
  | cons x t ih =>
      cases t with
      | nil => simp [lastD]
      | cons y u =>
          have hm : lastD (y :: u) d ∈ y :: u := ih (by simp)
          exact List.mem_cons_of_mem x hm

lemma lastD_const {α : Type} {l : List α} {v : α} (h : ∀ x ∈ l, x = v) (hne : l ≠ [])
    (d : α) : lastD l d = v :=
  h _ (lastD_mem d hne)

lemma pairwise_length_le_one {α : Type} {R : α → α → Prop} {l : List α}
    (h : l.Pairwise R) (hnot : ∀ x ∈ l, ∀ y ∈ l, ¬ R x y) : l = [] ∨ ∃ x, l = [x] := by
  match l with
  | [] => exact Or.inl rfl
  | [x] => exact Or.inr ⟨x, rfl⟩
  | x :: y :: t =>
      exact absurd ((List.pairwise_cons.mp h).1 y (by simp))
        (hnot x (by simp) y (by simp))

lemma filter_eq_of_nodup {α : Type} [DecidableEq α] {l : List α} (h : l.Nodup) (k : α) :
    l.filter (fun x => decide (x = k)) = if k ∈ l then [k] else [] := by
  induction l with
  | nil => simp
  | cons x t ih =>
      rcases List.nodup_cons.mp h with ⟨hx, ht⟩
      by_cases hxk : x = k
      · subst hxk
        simp [List.filter_cons, ih ht, hx]
      · by_cases hk : k ∈ t
        · simp [List.filter_cons, hxk, ih ht, hk, List.mem_cons]
        · simp [List.filter_cons, hxk, ih ht, hk, List.mem_cons, Ne.symm hxk]

lemma map_id_of_eq {α : Type} {f : α → α} {l : List α} (h : ∀ x ∈ l, f x = x) :
    l.map f = l := by
  induction l with
  | nil => rfl
  | cons x t ih =>
      simp only [List.map_cons, h x (by simp), List.cons.injEq, true_and]
      exact ih (fun y hy => h y (by simp [hy]))

/-! ### Consolidation lemmas. -/

lemma keyOf_rowFor (ts : List Trade) (k : TKey) : keyOf (rowFor ts k) = k := rfl

lemma mem_keysOf {k : TKey} {ts : List Trade} :
    k ∈ keysOf ts ↔ ∃ t ∈ ts, keyOf t = k := by
  unfold keysOf
  rw [mem_dedupOnce, List.mem_map]

lemma nodup_keysOf (ts : List Trade) : (keysOf ts).Nodup := nodup_dedupOnce _

lemma mem_consolidate {t : Trade} {ts : List Trade} :
    t ∈ consolidate ts ↔ ∃ k ∈ keysOf ts, t = rowFor ts k := by
  unfold consolidate
  rw [List.mem_map]
  tauto

lemma consolidate_key_inj {ts : List Trade} {t t' : Trade}
    (ht : t ∈ consolidate ts) (ht' : t' ∈ consolidate ts)
    (hk : keyOf t = keyOf t') : t = t' := by
  obtain ⟨k, _, rfl⟩ := mem_consolidate.mp ht
  obtain ⟨k', _, rfl⟩ := mem_consolidate.mp ht'
  rw [keyOf_rowFor, keyOf_rowFor] at hk
  rw [hk]

lemma consolidate_filter_key (ts : List Trade) (k : TKey) :
    (consolidate ts).filter (fun t => decide (keyOf t = k)) =
      if k ∈ keysOf ts then [rowFor ts k] else [] := by
  unfold consolidate
  rw [List.filter_map]
  have hcomp :
      ((fun t => decide (keyOf t = k)) ∘ rowFor ts) = fun x => decide (x = k) := by
    funext x
    simp [Function.comp, keyOf_rowFor]
  rw [hcomp, filter_eq_of_nodup (nodup_keysOf ts) k]
  by_cases hk : k ∈ keysOf ts <;> simp [hk]

lemma rowFor_action (ts : List Trade) (k : TKey) :
    (rowFor ts k).action =
      if 0 ≤ (rowFor ts k).sharesDelta then "BUY" else "SELL" := rfl

lemma consolidate_action {t : Trade} {ts : List Trade} (ht : t ∈ consolidate ts) :
    t.action = if 0 ≤ t.sharesDelta then "BUY" else "SELL" := by
  obtain ⟨k, _, rfl⟩ := mem_consolidate.mp ht
  rfl

lemma rowFor_singleton {ts : List Trade} {k : TKey} {u : Trade}
    (hf : ts.filter (fun t => decide (keyOf t = k)) = [u])
    (hu : keyOf u = k)
    (hact : u.action = if 0 ≤ u.sharesDelta then "BUY" else "SELL") :
    rowFor ts k = u := by
  subst hu
  cases u
  simp only [rowFor, hf, keyOf] at *
  simp_all [lastD]

/-! ### Characterisation of the raw trade legs. -/

lemma buyFor_elim {rows : List Row} {W : List (String × ℚ)} {s : String} {t : Trade}
    (h : buyFor rows W s = some t) :
    t.sleeve = s ∧ t.action = "BUY" ∧ 0 < t.sharesDelta ∧ t.capGain = 0 ∧
      t.price = priceFor rows t.identifier 0 ∧ 0 < t.price ∧
      t.averageCost = avgCostOf rows t.account t.identifier ∧
      t.taxStatus = acctTaxStat rows t.account ∧
      hostAcct rows s = some t.account := by
  unfold buyFor at h
  cases hh0 : hostAcct rows s with
  | none => rw [hh0] at h; exact absurd h (by simp)
  | some h0 =>
      rw [hh0] at h
      dsimp only at h
      by_cases hpos : posAccts rows W s = []
      · rw [if_pos hpos] at h; exact absurd h (by simp)
      · rw [if_neg hpos] at h
        cases hi : pickIdent rows h0 s with
        | none => rw [hi] at h; exact absurd h (by simp)
        | some i =>
            rw [hi] at h
            dsimp only at h
            by_cases hie : i = ""
            · rw [if_pos hie] at h; exact absurd h (by simp)
            · rw [if_neg hie] at h
              by_cases hpx : 0 < priceFor rows i 0
              · rw [if_pos hpx] at h
                by_cases hsh : 0 < round_shares (totalBuyD rows W s) (priceFor rows i 0) i
                · rw [if_pos hsh] at h
                  injection h with h
                  subst h
                  exact ⟨rfl, rfl, hsh, rfl, rfl, hpx, rfl, rfl, rfl⟩
                · rw [if_neg hsh] at h; exact absurd h (by simp)
              · rw [if_neg hpx] at h; exact absurd h (by simp)

lemma sellCand_elim {rows : List Row} {W : List (String × ℚ)} {s a : String} {c : SellC}
    (h : sellCand rows W s a = some c) :
    c.acct = a ∧ c.d = deltaAS rows W s a ∧
      c.px = priceFor rows c.ident 0 ∧ 0 < c.px ∧
      c.held = heldQty rows a c.ident ∧ c.avgc = avgCostOf rows a c.ident ∧
      ¬(c.held ≤ 0 ∧ c.d < 0) := by
  unfold sellCand at h
  cases hi : pickIdent rows a s with
  | none => rw [hi] at h; exact absurd h (by simp)
  | some i =>
      rw [hi] at h
      dsimp only at h
      by_cases hie : i = ""
      · rw [if_pos hie] at h; exact absurd h (by simp)
      · rw [if_neg hie] at h
        by_cases hpx : priceFor rows i 0 ≤ 0
        · rw [if_pos hpx] at h; exact absurd h (by simp)
        · rw [if_neg hpx] at h
          by_cases hheld : heldQty rows a i ≤ 0 ∧ deltaAS rows W s a < 0
          · rw [if_pos hheld] at h; exact absurd h (by simp)
          · rw [if_neg hheld] at h
            injection h with h
            subst h
            exact ⟨rfl, rfl, rfl, lt_of_not_le hpx, rfl, rfl, hheld⟩

lemma mem_negAccts {rows : List Row} {W : List (String × ℚ)} {s a : String}
    (h : a ∈ negAccts rows W s) : deltaAS rows W s a < 0 ∧ a ∈ accountsOf rows := by
  unfold negAccts at h
  rw [mem_sortByLe] at h
  have := List.of_mem_filter h
  exact ⟨by simpa using this, List.mem_of_mem_filter h⟩

lemma nodup_negAccts (rows : List Row) (W : List (String × ℚ)) (s : String) :
    (negAccts rows W s).Nodup :=
  nodup_sortByLe ((nodup_sortedDedupStr _).filter _)

lemma mem_sellCands {rows : List Row} {W : List (String × ℚ)} {s : String} {c : SellC}
    (h : c ∈ sellCands rows W s) :
    c.d < 0 ∧ 0 < c.held ∧
      c.px = priceFor rows c.ident 0 ∧ 0 < c.px ∧
      c.held = heldQty rows c.acct c.ident ∧ c.avgc = avgCostOf rows c.acct c.ident := by
  unfold sellCands at h
  rw [mem_sortByLe, List.mem_filterMap] at h
  obtain ⟨a, ha, hc⟩ := h
  obtain ⟨hacct, hd, hpx, hpxpos, hheld, havgc, hguard⟩ := sellCand_elim hc
  have hneg := (mem_negAccts ha).1
  have hdneg : c.d < 0 := hd ▸ hneg
  refine ⟨hdneg, ?_, hpx, hpxpos, hacct ▸ hheld, hacct ▸ havgc⟩
  by_contra hle
  exact hguard ⟨le_of_not_lt hle, hdneg⟩

lemma mkSell_elim {s : String} {rows : List Row} {c : SellC} {t : Trade}
    (h : mkSell s rows c = some t) :
    t.account = c.acct ∧ t.identifier = c.ident ∧ t.sleeve = s ∧ t.action = "SELL" ∧
      t.price = c.px ∧ t.averageCost = c.avgc ∧
      -(max 0 c.held) ≤ t.sharesDelta ∧ t.sharesDelta < 0 ∧
      t.capGain =
        (if c.avgc < c.px then (c.px - c.avgc) * (-t.sharesDelta) else 0) ∧
      t.taxStatus = acctTaxStat rows c.acct := by
  unfold mkSell at h
  dsimp only at h
  by_cases hneed : |c.d| ≤ 0
  · rw [if_pos hneed] at h; exact absurd h (by simp)
  · rw [if_neg hneed] at h
    by_cases hcap : min (round_shares |c.d| c.px c.ident) (max 0 c.held) ≤ 0
    · rw [if_pos hcap] at h; exact absurd h (by simp)
    · rw [if_neg hcap] at h
      injection h with h
      subst h
      have hcap' := lt_of_not_le hcap
      refine ⟨rfl, rfl, rfl, rfl, rfl, rfl, ?_, by simpa using hcap', ?_, rfl⟩
      · simp only [neg_le_neg_iff]
        exact min_le_right _ _
      · simp

lemma mem_sellsFor {rows : List Row} {W : List (String × ℚ)} {s : String} {t : Trade}
    (h : t ∈ sellsFor rows W s) :
    t.sleeve = s ∧ t.action = "SELL" ∧ t.sharesDelta < 0 ∧
      -(heldQty rows t.account t.identifier) ≤ t.sharesDelta ∧
      t.price = priceFor rows t.identifier 0 ∧ 0 < t.price ∧
      t.averageCost = avgCostOf rows t.account t.identifier ∧
      t.taxStatus = acctTaxStat rows t.account ∧
      t.capGain =
        (if t.averageCost < t.price
         then (t.price - t.averageCost) * (-t.sharesDelta) else 0) := by
  unfold sellsFor at h
  rw [List.mem_filterMap] at h
  obtain ⟨c, hc, ht⟩ := h
  obtain ⟨hd, hheldpos, hpx, hpxpos, hheld, havgc⟩ := mem_sellCands hc
  obtain ⟨hacct, hident, hsleeve, hact, hprice, havg, hbound, hneg, hcap, hts⟩ :=
    mkSell_elim ht
  have hmax : max 0 c.held = c.held := max_eq_right (le_of_lt hheldpos)
  refine ⟨hsleeve, hact, hneg, ?_, ?_, ?_, ?_, ?_, ?_⟩
  · rw [hacct, hident, ← hheld]
    calc -(c.held) = -(max 0 c.held) := by rw [hmax]
    _ ≤ t.sharesDelta := hbound
  · rw [hprice, hident, hpx]
  · rw [hprice]; exact hpxpos
  · rw [havg, hacct, hident, havgc]
  · rw [hts, hacct]
  · rw [hcap, hprice, havg]

lemma sellsFor_acct_pairwise (rows : List Row) (W : List (String × ℚ)) (s : String) :
    (sellsFor rows W s).Pairwise (fun t t' => t.account ≠ t'.account) := by
  unfold sellsFor sellCands
  have h0 : (negAccts rows W s).Pairwise (· ≠ ·) :=
    (nodup_negAccts rows W s)
  have h1 : ((negAccts rows W s).filterMap (sellCand rows W s)).Pairwise
      (fun c c' => c.acct ≠ c'.acct) := by
    refine List.Pairwise.filterMap _ ?_ h0
    intro a a' hne c hc c' hc'
    have := (sellCand_elim (Option.mem_def.mp hc)).1
    have := (sellCand_elim (Option.mem_def.mp hc')).1
    simp_all
  have h2 : (sortByLe
      (fun x y => decide (x.rate < y.rate ∨ (x.rate = y.rate ∧ x.gpd ≤ y.gpd)))
      ((negAccts rows W s).filterMap (sellCand rows W s))).Pairwise
      (fun c c' => c.acct ≠ c'.acct) :=
    pairwise_sortByLe (fun a b h => fun he => h he.symm) h1
  refine List.Pairwise.filterMap _ ?_ h2
  intro c c' hne t ht t' ht'
  have e1 := (mkSell_elim (Option.mem_def.mp ht)).1
  have e2 := (mkSell_elim (Option.mem_def.mp ht')).1
  simp_all

lemma mem_sleeveTrades_sleeve {rows : List Row} {W : List (String × ℚ)} {s : String}
    {t : Trade} (h : t ∈ sleeveTrades rows W s) : t.sleeve = s := by
  unfold sleeveTrades at h
  rcases List.mem_append.mp h with h | h
  · cases hb : buyFor rows W s with
    | none => rw [hb] at h; simp at h
    | some b =>
        rw [hb] at h
        simp only [Option.toList_some, List.mem_singleton] at h
        subst h
        exact (buyFor_elim hb).1
  · exact (mem_sellsFor h).1

lemma nodup_sleevesList (rows : List Row) (W : List (String × ℚ)) :
    (sleevesListOf rows W).Nodup := by
  unfold sleevesListOf
  split
  · exact List.nodup_nil
  · exact (nodup_sortedDedupStr _).filter _

lemma keyOf_eq_iff {t : Trade} {k : TKey} :
    keyOf t = k ↔
      t.account = k.account ∧ t.taxStatus = k.taxStatus ∧
        t.identifier = k.identifier ∧ t.sleeve = k.sleeve := by
  cases k
  simp [keyOf, TKey.mk.injEq]

lemma raw_filter_eq {rows : List Row} {W : List (String × ℚ)} {k : TKey}
    (hk : k ∈ keysOf (rawTrades rows W)) :
    (rawTrades rows W).filter (fun t => decide (keyOf t = k)) =
      (sleeveTrades rows W k.sleeve).filter (fun t => decide (keyOf t = k)) ∧
      k.sleeve ∈ sleevesListOf rows W := by
  obtain ⟨t0, ht0, hkey⟩ := mem_keysOf.mp hk
  obtain ⟨s0, hs0, hts0⟩ := List.mem_flatMap.mp ht0
  have hsl : t0.sleeve = s0 := mem_sleeveTrades_sleeve hts0
  have hks : k.sleeve = s0 := by
    rw [← hsl]
    exact ((keyOf_eq_iff.mp hkey).2.2.2).symm
  subst hks
  refine ⟨?_, hs0⟩
  unfold rawTrades
  rw [filter_flatMap]
  refine flatMap_eq_single (nodup_sleevesList rows W) hs0 ?_
  intro s' hs' hne
  rw [List.filter_eq_nil_iff]
  intro t ht
  have h1 : t.sleeve = s' := mem_sleeveTrades_sleeve ht
  simp only [decide_eq_true_eq]
  intro hc
  exact hne (by rw [← (keyOf_eq_iff.mp hc).2.2.2, h1])

lemma raw_group_shape {rows : List Row} {W : List (String × ℚ)} {k : TKey}
    (hk : k ∈ keysOf (rawTrades rows W)) :
    ∃ (bl sl : List Trade),
      (rawTrades rows W).filter (fun t => decide (keyOf t = k)) = bl ++ sl ∧
      (bl = [] ∨ ∃ b, bl = [b] ∧ buyFor rows W k.sleeve = some b ∧ keyOf b = k) ∧
      (sl = [] ∨ ∃ e, sl = [e] ∧ e ∈ sellsFor rows W k.sleeve ∧ keyOf e = k) := by
  obtain ⟨hfe, _⟩ := raw_filter_eq hk
  rw [hfe]
  unfold sleeveTrades
  rw [List.filter_append]
  refine ⟨_, _, rfl, ?_, ?_⟩
  · cases hb : buyFor rows W k.sleeve with
    | none => exact Or.inl (by simp)
    | some b =>
        simp only [Option.toList_some]
        by_cases hbk : keyOf b = k
        · exact Or.inr ⟨b, by simp [List.filter_cons, hbk], rfl, hbk⟩
        · exact Or.inl (by simp [List.filter_cons, hbk])
  · have hpw : ((sellsFor rows W k.sleeve).filter
        (fun t => decide (keyOf t = k))).Pairwise
        (fun t t' => t.account ≠ t'.account) :=
      (sellsFor_acct_pairwise rows W k.sleeve).filter _
    have hall : ∀ x ∈ (sellsFor rows W k.sleeve).filter
        (fun t => decide (keyOf t = k)), x.account = k.account := by
      intro x hx
      have := List.of_mem_filter hx
      exact (keyOf_eq_iff.mp (by simpa using this)).1
    rcases pairwise_length_le_one hpw
        (fun x hx y hy hne => hne ((hall x hx).trans (hall y hy).symm)) with h | ⟨e, he⟩
    · exact Or.inl h
    · refine Or.inr ⟨e, he, ?_, ?_⟩
      · have : e ∈ (sellsFor rows W k.sleeve).filter (fun t => decide (keyOf t = k)) := by
          rw [he]; simp
        exact List.mem_of_mem_filter this
      · have : e ∈ (sellsFor rows W k.sleeve).filter (fun t => decide (keyOf t = k)) := by
          rw [he]; simp
        simpa using List.of_mem_filter this

lemma rowFor_raw_props {rows : List Row} {W : List (String × ℚ)} {k : TKey}
    (hk : k ∈ keysOf (rawTrades rows W)) :
    (rowFor (rawTrades rows W) k).price = priceFor rows k.identifier 0 ∧
      0 < (rowFor (rawTrades rows W) k).price ∧
      (rowFor (rawTrades rows W) k).averageCost = avgCostOf rows k.account k.identifier ∧
      ((rowFor (rawTrades rows W) k).sharesDelta < 0 →
        ∃ s0, -(rowFor (rawTrades rows W) k).sharesDelta ≤ s0 ∧
          s0 ≤ heldQty rows k.account k.identifier ∧
          (rowFor (rawTrades rows W) k).capGain =
            (if avgCostOf rows k.account k.identifier < priceFor rows k.identifier 0
             then (priceFor rows k.identifier 0 - avgCostOf rows k.account k.identifier) * s0
             else 0)) ∧
      (0 ≤ (rowFor (rawTrades rows W) k).sharesDelta →
        ∃ b, buyFor rows W k.sleeve = some b ∧ keyOf b = k) := by
  obtain ⟨bl, sl, hg, hbl, hsl⟩ := raw_group_shape hk
  have hne : (rawTrades rows W).filter (fun t => decide (keyOf t = k)) ≠ [] := by
    obtain ⟨t0, ht0, hkey⟩ := mem_keysOf.mp hk
    intro hnil
    have : t0 ∈ (rawTrades rows W).filter (fun t => decide (keyOf t = k)) :=
      List.mem_filter.mpr ⟨ht0, by simp [hkey]⟩
    simp [hnil] at this
  rcases hbl with rfl | ⟨b, rfl, hb, hbk⟩ <;> rcases hsl with rfl | ⟨e, rfl, he, hek⟩
  · exact absurd (hg.trans rfl) hne
  · -- sell leg only
    obtain ⟨hsle, hact, hsd, hbound, hpr, hprpos, havc, hts, hcg⟩ := mem_sellsFor he
    obtain ⟨hea, het, hei, hes⟩ := keyOf_eq_iff.mp hek
    simp only [List.nil_append] at hg
    have hfields : (rowFor (rawTrades rows W) k).price = e.price ∧
        (rowFor (rawTrades rows W) k).averageCost = e.averageCost ∧
        (rowFor (rawTrades rows W) k).sharesDelta = e.sharesDelta ∧
        (rowFor (rawTrades rows W) k).capGain = e.capGain := by
      simp [rowFor, hg, lastD]
    obtain ⟨f1, f2, f3, f4⟩ := hfields
    refine ⟨?_, ?_, ?_, ?_, ?_⟩
    · rw [f1, hpr, hei]
    · rw [f1]; exact hprpos
    · rw [f2, havc, hea, hei]
    · intro _
      refine ⟨-e.sharesDelta, by rw [f3], ?_, ?_⟩
      · have := hbound
        rw [hea, hei] at this
        linarith
      · rw [f4, hcg, havc, hpr, hea, hei]
    · intro hge
      rw [f3] at hge
      linarith
  · -- buy leg only
    obtain ⟨hbs, hbact, hbsd, hbcg, hbpr, hbprpos, hbavc, hbts, hbhost⟩ := buyFor_elim hb
    obtain ⟨hba, hbt, hbi, hbsl⟩ := keyOf_eq_iff.mp hbk
    simp only [List.append_nil] at hg
    have hfields : (rowFor (rawTrades rows W) k).price = b.price ∧
        (rowFor (rawTrades rows W) k).averageCost = b.averageCost ∧
        (rowFor (rawTrades rows W) k).sharesDelta = b.sharesDelta ∧
        (rowFor (rawTrades rows W) k).capGain = b.capGain := by
      simp [rowFor, hg, lastD]
    obtain ⟨f1, f2, f3, f4⟩ := hfields
    refine ⟨?_, ?_, ?_, ?_, ?_⟩
    · rw [f1, hbpr, hbi]
    · rw [f1]; exact hbprpos
    · rw [f2, hbavc, hba, hbi]
    · intro hlt
      rw [f3] at hlt
      linarith
    · intro _
      exact ⟨b, hb, hbk⟩
  · -- buy and sell legs
    obtain ⟨hbs, hbact, hbsd, hbcg, hbpr, hbprpos, hbavc, hbts, hbhost⟩ := buyFor_elim hb
    obtain ⟨hba, hbt, hbi, hbsl⟩ := keyOf_eq_iff.mp hbk
    obtain ⟨hsle, hact, hsd, hbound, hpr, hprpos, havc, hts, hcg⟩ := mem_sellsFor he
    obtain ⟨hea, het, hei, hes⟩ := keyOf_eq_iff.mp hek
    have hfields : (rowFor (rawTrades rows W) k).price = e.price ∧
        (rowFor (rawTrades rows W) k).averageCost = e.averageCost ∧
        (rowFor (rawTrades rows W) k).sharesDelta = b.sharesDelta + e.sharesDelta ∧
        (rowFor (rawTrades rows W) k).capGain = b.capGain + e.capGain := by
      simp [rowFor, hg, lastD]
    obtain ⟨f1, f2, f3, f4⟩ := hfields
    refine ⟨?_, ?_, ?_, ?_, ?_⟩
    · rw [f1, hpr, hei]
    · rw [f1]; exact hprpos
    · rw [f2, havc, hea, hei]
    · intro _
      refine ⟨-e.sharesDelta, ?_, ?_, ?_⟩
      · rw [f3]; linarith
      · have := hbound
        rw [hea, hei] at this
        linarith
      · rw [f4, hbcg, hcg, havc, hpr, hea, hei]
        ring
    · intro _
      exact ⟨b, hb, hbk⟩

/-! ### Cash rows and the final trade list. -/

lemma is_cashlike_cashIdentFor (rows : List Row) (a : String) :
    is_cashlike (cashIdentFor rows a) = true := by
  unfold cashIdentFor
  split
  next r hr => simpa using List.find?_some hr
  · decide

lemma mem_cashRows {rows : List Row} {ts : List Trade} {ctol : ℚ} {u : Trade}
    (h : u ∈ cashRowsOf rows ts ctol) :
    u.sleeve = "Cash" ∧ is_cashlike u.identifier = true := by
  unfold cashRowsOf at h
  rw [List.mem_filterMap] at h
  obtain ⟨a, _, hu⟩ := h
  unfold cashRowFor at hu
  by_cases h1 : |flowOf ts a| ≤ ctol
  · rw [if_pos h1] at hu; exact absurd hu (by simp)
  · rw [if_neg h1] at hu
    dsimp only at hu
    by_cases h2 : round_shares (-flowOf ts a)
        (if priceFor rows (cashIdentFor rows a) 1 ≤ 0 then 1
         else priceFor rows (cashIdentFor rows a) 1) (cashIdentFor rows a) = 0
    · rw [if_pos h2] at hu; exact absurd hu (by simp)
    · rw [if_neg h2] at hu
      injection hu with hu
      subst hu
      exact ⟨rfl, is_cashlike_cashIdentFor rows a⟩

lemma txMain_is_consolidate (rows : List Row) (W : List (String × ℚ)) (ctol : ℚ) :
    ∃ ts, txMain rows W ctol = consolidate ts := by
  unfold txMain
  dsimp only
  split
  · exact ⟨_, rfl⟩
  · exact ⟨_, rfl⟩

lemma mem_txMain_eq {rows : List Row} {W : List (String × ℚ)} {ctol : ℚ} {t : Trade}
    (ht : t ∈ txMain rows W ctol)
    (hnc : t.sleeve ≠ "Cash" ∨ is_cashlike t.identifier = false) :
    keyOf t ∈ keysOf (rawTrades rows W) ∧ t = rowFor (rawTrades rows W) (keyOf t) := by
  unfold txMain at ht
  dsimp only at ht
  split at ht
  · obtain ⟨k, hk, rfl⟩ := mem_consolidate.mp ht
    exact ⟨by rw [keyOf_rowFor]; exact hk, by rw [keyOf_rowFor]⟩
  next hcashne =>
    obtain ⟨k, hk, rfl⟩ := mem_consolidate.mp ht
    set raw := rawTrades rows W with hraw
    set tx1 := consolidate raw with htx1
    set cash := cashRowsOf rows tx1 ctol with hcash
    have hkey : keyOf (rowFor (tx1 ++ cash) k) = k := keyOf_rowFor _ _
    have hnc' : k.sleeve ≠ "Cash" ∨ is_cashlike k.identifier = false := by
      rcases hnc with h | h
      · exact Or.inl (by rw [← hkey] at h ⊢; exact h)
      · exact Or.inr (by rw [← hkey] at h ⊢; exact h)
    have hcashk : ∀ u ∈ cash, ¬(keyOf u = k) := by
      intro u hu hk'
      obtain ⟨hus, hui⟩ := mem_cashRows hu
      obtain ⟨_, _, hki, hks⟩ := keyOf_eq_iff.mp hk'
      rcases hnc' with h | h
      · exact h (by rw [← hks, hus])
      · rw [← hki, hui] at h
        exact absurd h (by simp)
    have hfc : cash.filter (fun t => decide (keyOf t = k)) = [] := by
      rw [List.filter_eq_nil_iff]
      intro u hu
      simpa using hcashk u hu
    have hkraw : k ∈ keysOf raw := by
      obtain ⟨u, hu, hku⟩ := mem_keysOf.mp hk
      rcases List.mem_append.mp hu with hu1 | hu2
      · obtain ⟨k', hk', rfl⟩ := mem_consolidate.mp hu1
        rw [keyOf_rowFor] at hku
        exact hku ▸ hk'
      · exact absurd hku (hcashk u hu2)
    have hfilter : (tx1 ++ cash).filter (fun t => decide (keyOf t = k)) =
        [rowFor raw k] := by
      rw [List.filter_append, hfc, List.append_nil, htx1, consolidate_filter_key,
        if_pos hkraw]
    have : rowFor (tx1 ++ cash) k = rowFor raw k :=
      rowFor_singleton hfilter (keyOf_rowFor _ _) (rowFor_action _ _)
    rw [this]
    exact ⟨hkraw, rfl⟩

lemma txOf_eq_txMain_or_nil (hs : List HoldingIn) (Win : List (String × ℚ)) (ctol : ℚ) :
    txOf hs Win ctol = [] ∨
      txOf hs Win ctol = txMain (rowsOf hs) (normW Win) ctol := by
  by_cases h1 : ((clipWeights Win).map (·.2)).sum ≤ (0 : ℚ)
  · left
    simp [txOf, build_trades_and_afterholdings, h1]
  · by_cases h2 : rawTrades (rowsOf hs) (normW Win) = []
    · left
      simp [txOf, build_trades_and_afterholdings, h1, h2]
    · right
      simp [txOf, build_trades_and_afterholdings, h1, h2]

/-! ### Host-account maximality. -/

lemma exposure_zero_of_not_mem {rows : List Row} {a : String} (s : String)
    (h : a ∉ accountsOf rows) : exposure rows a s = 0 := by
  unfold exposure
  have : rows.filter (fun r => decide (r.account = a ∧ r.sleeve = s ∧ r.illq = false)) =
      [] := by
    rw [List.filter_eq_nil_iff]
    intro r hr
    simp only [decide_eq_true_eq, not_and]
    intro hra _
    exact absurd (mem_sortedDedupStr.mpr (List.mem_map.mpr ⟨r, hr, hra⟩)) h
  rw [this]
  rfl

lemma hostAcct_max {rows : List Row} {s h0 : String} (hh : hostAcct rows s = some h0) :
    ((∃ a, 0 < exposure rows a s) → ∀ a, exposure rows a s ≤ exposure rows h0 s) ∧
      ((∀ a, exposure rows a s ≤ 0) →
        ∀ a ∈ accountsOf rows, acctInvestable rows a ≤ acctInvestable rows h0) := by
  unfold hostAcct at hh
  split at hh
  next hany =>
    have hw : ∃ w ∈ accountsOf rows, 0 < exposure rows w s := by
      simpa using List.any_eq_true.mp hany
    obtain ⟨w, hwmem, hwpos⟩ := hw
    have hpos : 0 < exposure rows h0 s :=
      lt_of_lt_of_le hwpos (argmaxFirst_le hh w hwmem)
    constructor
    · intro _ a
      by_cases ha : a ∈ accountsOf rows
      · exact argmaxFirst_le hh a ha
      · rw [exposure_zero_of_not_mem s ha]
        exact le_of_lt hpos
    · intro hall
      exact absurd (hall w) (not_le.mpr hwpos)
  next hany =>
    have hnone : ∀ a ∈ accountsOf rows, ¬(0 < exposure rows a s) := by
      intro a ha
      intro hpos
      exact hany (List.any_eq_true.mpr ⟨a, ha, by simpa using hpos⟩)
    constructor
    · rintro ⟨a0, ha0⟩
      exfalso
      by_cases ha : a0 ∈ accountsOf rows
      · exact hnone a0 ha ha0
      · rw [exposure_zero_of_not_mem s ha] at ha0
        exact lt_irrefl 0 ha0
    · intro _ a ha
      exact argmaxFirst_le hh a ha

/-! ### Claim theorems (universal statements). -/

/-- Claim C1, amended: in every run, every returned trade outside the Cash
sleeve whose net SharesDelta is negative sells at most the total quantity
held for that (account, identifier) in the input holdings.  (Corrective
cash-balancing trades, which carry the Cash sleeve, are not so capped.) -/
theorem claim_C1_amended (hs : List HoldingIn) (Win : List (String × ℚ)) (ctol : ℚ)
    (t : Trade) (ht : t ∈ txOf hs Win ctol) (hnc : t.sleeve ≠ "Cash")
    (hneg : t.sharesDelta < 0) :
    |t.sharesDelta| ≤ heldQty (rowsOf hs) t.account t.identifier := by
  rcases txOf_eq_txMain_or_nil hs Win ctol with h | h
  · rw [h] at ht; simp at ht
  · rw [h] at ht
    obtain ⟨hk, heq⟩ := mem_txMain_eq ht (Or.inl hnc)
    obtain ⟨_, _, _, hsell, _⟩ := rowFor_raw_props hk
    rw [← heq] at hsell
    obtain ⟨s0, hs1, hs2, _⟩ := hsell hneg
    rw [abs_of_neg hneg]
    exact le_trans hs1 hs2

/-- Claim C2, amended: for every returned SELL trade outside the Cash sleeve,
CapGain_Dollars equals (Price − AverageCost) × s when Price > AverageCost and
0 otherwise (floored at zero, never negative), where s is the share count of
the row's sell leg: |SharesDelta| ≤ s ≤ shares held, with s exceeding
|SharesDelta| only when a pooled buy was merged into the same row. -/
theorem claim_C2_amended (hs : List HoldingIn) (Win : List (String × ℚ)) (ctol : ℚ)
    (t : Trade) (ht : t ∈ txOf hs Win ctol) (hnc : t.sleeve ≠ "Cash")
    (hsell : t.action = "SELL") :
    ∃ s0 : ℚ, |t.sharesDelta| ≤ s0 ∧
      s0 ≤ heldQty (rowsOf hs) t.account t.identifier ∧
      t.capGain =
        (if t.averageCost < t.price then (t.price - t.averageCost) * s0 else 0) := by
  rcases txOf_eq_txMain_or_nil hs Win ctol with h | h
  · rw [h] at ht; simp at ht
  · rw [h] at ht
    obtain ⟨ts, hts⟩ := txMain_is_consolidate (rowsOf hs) (normW Win) ctol
    have hact := consolidate_action (hts ▸ ht)
    have hneg : t.sharesDelta < 0 := by
      by_contra hge
      rw [if_pos (le_of_not_lt hge)] at hact
      rw [hsell] at hact
      exact absurd hact (by decide)
    obtain ⟨hk, heq⟩ := mem_txMain_eq ht (Or.inl hnc)
    obtain ⟨hp, hppos, hac, hsellp, _⟩ := rowFor_raw_props hk
    rw [← heq] at hp hac hsellp
    obtain ⟨s0, hs1, hs2, hcg⟩ := hsellp hneg
    refine ⟨s0, ?_, hs2, ?_⟩
    · rw [abs_of_neg hneg]; exact hs1
    · rw [hp, hac]
      exact hcg

/-- Claim C3, amended: every BUY row outside the Cash sleeve is the unique
BUY for its sleeve, and its account is the buy host: the account with
maximal dollar exposure to the sleeve when some account has positive
exposure, else the account with maximal investable dollars.  Tax-exempt
status plays no role in the choice. -/
theorem claim_C3_amended (hs : List HoldingIn) (Win : List (String × ℚ)) (ctol : ℚ)
    (t : Trade) (ht : t ∈ txOf hs Win ctol) (hbuy : t.action = "BUY")
    (hnc : t.sleeve ≠ "Cash") :
    (∀ t' ∈ txOf hs Win ctol, t'.action = "BUY" → t'.sleeve = t.sleeve → t' = t) ∧
      ((∃ a, 0 < exposure (rowsOf hs) a t.sleeve) →
        ∀ a, exposure (rowsOf hs) a t.sleeve ≤ exposure (rowsOf hs) t.account t.sleeve) ∧
      ((∀ a, exposure (rowsOf hs) a t.sleeve ≤ 0) →
        ∀ a ∈ accountsOf (rowsOf hs),
          acctInvestable (rowsOf hs) a ≤ acctInvestable (rowsOf hs) t.account) := by
  rcases txOf_eq_txMain_or_nil hs Win ctol with h | h
  · rw [h] at ht; simp at ht
  · rw [h] at ht
    obtain ⟨ts, hts⟩ := txMain_is_consolidate (rowsOf hs) (normW Win) ctol
    have hact := consolidate_action (hts ▸ ht)
    have hge : 0 ≤ t.sharesDelta := by
      by_contra hlt
      rw [if_neg hlt] at hact
      rw [hbuy] at hact
      exact absurd hact (by decide)
    obtain ⟨hk, heq⟩ := mem_txMain_eq ht (Or.inl hnc)
    obtain ⟨_, _, _, _, hpos⟩ := rowFor_raw_props hk
    rw [← heq] at hpos
    obtain ⟨b, hb, hbk⟩ := hpos hge
    have hba : b.account = t.account := (keyOf_eq_iff.mp hbk).1
    have hhost : hostAcct (rowsOf hs) t.sleeve = some b.account :=
      (buyFor_elim hb).2.2.2.2.2.2.2.2
    refine ⟨?_, ?_, ?_⟩
    · intro t' ht' hbuy' hsl'
      rw [h] at ht'
      have hnc' : t'.sleeve ≠ "Cash" := hsl' ▸ hnc
      have hact' := consolidate_action (hts ▸ ht')
      have hge' : 0 ≤ t'.sharesDelta := by
        by_contra hlt'
        rw [if_neg hlt'] at hact'
        rw [hbuy'] at hact'
        exact absurd hact' (by decide)
      obtain ⟨hk', heq'⟩ := mem_txMain_eq ht' (Or.inl hnc')
      obtain ⟨_, _, _, _, hpos'⟩ := rowFor_raw_props hk'
      rw [← heq'] at hpos'
      obtain ⟨b', hb', hbk'⟩ := hpos' hge'
      have hsame : buyFor (rowsOf hs) (normW Win) t'.sleeve =
          buyFor (rowsOf hs) (normW Win) t.sleeve := by rw [hsl']
      have hb'2 : buyFor (rowsOf hs) (normW Win) t'.sleeve = some b' := hb'
      have hb2 : buyFor (rowsOf hs) (normW Win) t.sleeve = some b := hb
      have hbb : b' = b := by
        have h1 : buyFor (rowsOf hs) (normW Win) t.sleeve = some b' := by
          rw [← hsame]; exact hb'2
        rw [hb2] at h1
        injection h1 with h1
        exact h1.symm
      have hkk : keyOf t' = keyOf t := by rw [← hbk', hbb, hbk]
      exact consolidate_key_inj (hts ▸ ht') (hts ▸ ht) hkk
    · intro hex
      have := (hostAcct_max hhost).1 hex
      rw [hba] at this
      exact this
    · intro hall
      have := (hostAcct_max hhost).2 hall
      rw [hba] at this
      exact this

/-- Claim C5: the returned trade list has at most one row per
(Account, TaxStatus, Identifier, Sleeve) tuple, and every row's Action is
BUY exactly when its net SharesDelta is non-negative (Action is computed
from the consolidated net). -/
theorem claim_C5_consolidated (hs : List HoldingIn) (Win : List (String × ℚ)) (ctol : ℚ) :
    (∀ t ∈ txOf hs Win ctol, ∀ t' ∈ txOf hs Win ctol,
        t.account = t'.account → t.taxStatus = t'.taxStatus →
        t.identifier = t'.identifier → t.sleeve = t'.sleeve → t = t') ∧
      ∀ t ∈ txOf hs Win ctol,
        t.action = if 0 ≤ t.sharesDelta then "BUY" else "SELL" := by
  rcases txOf_eq_txMain_or_nil hs Win ctol with h | h
  · rw [h]
    exact ⟨fun t ht => by simp at ht, fun t ht => by simp at ht⟩
  · rw [h]
    obtain ⟨ts, hts⟩ := txMain_is_consolidate (rowsOf hs) (normW Win) ctol
    rw [hts]
    constructor
    · intro t ht t' ht' h1 h2 h3 h4
      refine consolidate_key_inj ht ht' ?_
      unfold keyOf
      rw [h1, h2, h3, h4]
    · intro t ht
      exact consolidate_action ht

/-- Claim C8: the engine is deterministic — two runs on equal inputs return
equal trade lists (the embedding is a pure function of its inputs, and the
generation order is fixed by explicit sort keys, not incidental iteration). -/
theorem claim_C8_determinism (hs1 hs2 : List HoldingIn) (W1 W2 : List (String × ℚ))
    (c1 c2 : ℚ) (hh : hs1 = hs2) (hw : W1 = W2) (hc : c1 = c2) :
    txOf hs1 W1 c1 = txOf hs2 W2 c2 := by
  subst hh; subst hw; subst hc; rfl

/-- Claim C10: every returned trade in a non-cash-like identifier carries the
portfolio-wide median of that identifier's input row prices, so all trades in
one identifier share one price. -/
theorem claim_C10_median_price (hs : List HoldingIn) (Win : List (String × ℚ))
    (ctol : ℚ) (t : Trade) (ht : t ∈ txOf hs Win ctol)
    (hnc : is_cashlike t.identifier = false) :
    t.price = medianQ (identPrices (rowsOf hs) t.identifier) := by
  rcases txOf_eq_txMain_or_nil hs Win ctol with h | h
  · rw [h] at ht; simp at ht
  · rw [h] at ht
    obtain ⟨hk, heq⟩ := mem_txMain_eq ht (Or.inr hnc)
    obtain ⟨hp, hppos, _, _, _⟩ := rowFor_raw_props hk
    rw [← heq] at hp hppos
    rw [hp]
    unfold priceFor
    dsimp only
    split
    next hempty =>
      exfalso
      rw [hp] at hppos
      unfold priceFor at hppos
      dsimp only at hppos
      rw [if_pos hempty] at hppos
      exact lt_irrefl 0 hppos
    · rfl

/-- Claim C9, amended: the illiquid issuer-marker override is checked before
the explicit identifier table; for an identifier in the table the table's
sleeve is returned whenever the normalised name and symbol do not carry the
issuer marker, regardless of the rest of the name; the keyword heuristics
and the broad-market fallback apply only off-table. -/
theorem claim_C9_amended (sym name v : String)
    (hv : List.lookup (upStrip sym) MAP_TO_SLEEVE = some v)
    (hna : is_automattic (upStrip sym) (upStrip name) = false) :
    map_sleeve sym name = v := by
  unfold map_sleeve
  dsimp only
  rw [if_neg (by simp [hna])]
  rw [hv]

/-- Rows of a holdings-after table built by the main path satisfy the
recomputed Value and Cost identities. -/
lemma mem_afterOf {rows : List Row} {ts : List Trade} {r : Row}
    (h : r ∈ afterOf rows ts) :
    r.value = r.quantity * r.price ∧ r.cost = r.quantity * r.averageCost := by
  unfold afterOf at h
  dsimp only at h
  rw [List.mem_map] at h
  obtain ⟨x, _, rfl⟩ := h
  exact ⟨rfl, rfl⟩

/-- Claim C6, amended: in every run that emits at least one trade, every row
of the returned holdings-after table satisfies Value = Quantity × Price and
Cost = Quantity × AverageCost.  (No-trade runs return the enriched input
table, carrying through any provided Value / Cost values unchanged.) -/
theorem claim_C6_amended (hs : List HoldingIn) (Win : List (String × ℚ)) (ctol : ℚ)
    (hne : txOf hs Win ctol ≠ []) (r : Row) (hr : r ∈ afterHoldings hs Win ctol) :
    r.value = r.quantity * r.price ∧ r.cost = r.quantity * r.averageCost := by
  by_cases h1 : ((clipWeights Win).map (·.2)).sum ≤ (0 : ℚ)
  · exact absurd (by simp [txOf, build_trades_and_afterholdings, h1]) hne
  · by_cases h2 : rawTrades (rowsOf hs) (normW Win) = []
    · exact absurd (by simp [txOf, build_trades_and_afterholdings, h1, h2]) hne
    · have hafter : afterHoldings hs Win ctol =
          afterOf (rowsOf hs) (txMain (rowsOf hs) (normW Win) ctol) := by
        simp [afterHoldings, build_trades_and_afterholdings, h1, h2]
      rw [hafter] at hr
      exact mem_afterOf hr

/-- Claim C7, amended: applying a trade list whose every trade has zero
SharesDelta returns the holdings unchanged, provided every holdings row has
|Quantity| above the 1e-6 dust threshold and a Value consistent with
Quantity × Price; dust rows would be dropped and inconsistent Values
recomputed. -/
theorem claim_C7_amended (holdings : List Row) (trades : List Trade)
    (hz : ∀ t ∈ trades, t.sharesDelta = 0)
    (hq : ∀ r ∈ holdings, (1 : ℚ) / 10 ^ 6 < |r.quantity|)
    (hv : ∀ r ∈ holdings, r.value = r.quantity * r.price) :
    apply_trades_to_holdings holdings trades = holdings := by
  unfold apply_trades_to_holdings
  by_cases he : trades = []
  · rw [if_pos he]
  · rw [if_neg he]
    dsimp only
    have hdelta : ∀ a i, deltaKey trades a i = 0 := by
      intro a i
      unfold deltaKey
      apply List.sum_eq_zero
      intro x hx
      rw [List.mem_map] at hx
      obtain ⟨u, hu, rfl⟩ := hx
      exact hz u (List.mem_of_mem_filter hu)
    set synth := ((dedupOnce (trades.map fun t => (t.account, t.identifier))).filter
      (fun p => !(holdings.any (fun r => decide (r.account = p.1 ∧ r.symbol = p.2))))).map
      (fun p =>
        ({ account := p.1, name := p.2, symbol := p.2, quantity := 0, price := 0
           averageCost := 0, value := 0, cost := 0, taxStatus := ""
           sleeve := "US_Core", illq := false } : Row)) with hsynth
    have happ : ((holdings ++ synth).map
        (fun r =>
          let sh := deltaKey trades r.account r.symbol
          if sh ≠ 0 then { r with quantity := r.quantity + sh,
                                  value := (r.quantity + sh) * r.price }
          else r)) = holdings ++ synth := by
      apply map_id_of_eq
      intro r _
      simp [hdelta]
    rw [happ, List.filter_append]
    have hfh : holdings.filter (fun r => decide ((1 : ℚ) / 10 ^ 6 < |r.quantity|)) =
        holdings := by
      rw [List.filter_eq_self]
      intro r hr
      simpa using hq r hr
    have hfs : synth.filter (fun r => decide ((1 : ℚ) / 10 ^ 6 < |r.quantity|)) = [] := by
      rw [List.filter_eq_nil_iff]
      intro r hr
      rw [hsynth, List.mem_map] at hr
      obtain ⟨p, _, rfl⟩ := hr
      simp
    rw [hfh, hfs, List.append_nil]
    apply map_id_of_eq
    intro r hr
    have hvr := (hv r hr).symm
    cases r
    simp_all

/-! ### Degenerate runs (claim C4). -/

/-- Partition of an account's total value into illiquid and non-illiquid
parts. -/
lemma acct_value_split (rows : List Row) (a : String) :
    acctTotalVal rows a =
      acctIllqVal rows a +
        ((rows.filter (fun r => decide (r.account = a ∧ r.illq = false))).map
          (·.value)).sum := by
  unfold acctTotalVal acctIllqVal
  induction rows with
  | nil => simp
  | cons x t ih =>
      by_cases hxa : x.account = a
      · by_cases hxi : x.illq = true
        · have d1 : (fun r => decide (r.account = a)) x = true := by simp [hxa]
          have d2 : (fun r => decide (r.account = a ∧ r.illq = true)) x = true := by
            simp [hxa, hxi]
          have d3 : (fun r => decide (r.account = a ∧ r.illq = false)) x = false := by
            simp [hxa, hxi]
          rw [List.filter_cons_of_pos (a := x) (l := t) d1,
            List.filter_cons_of_pos (a := x) (l := t) d2,
            List.filter_cons_of_neg (a := x) (l := t) (by simp [d3]), List.map_cons,
            List.sum_cons, List.map_cons, List.sum_cons, ih]
          ring
        · have hxf : x.illq = false := by simpa using hxi
          have d1 : (fun r => decide (r.account = a)) x = true := by simp [hxa]
          have d2 : (fun r => decide (r.account = a ∧ r.illq = true)) x = false := by
            simp [hxa, hxf]
          have d3 : (fun r => decide (r.account = a ∧ r.illq = false)) x = true := by
            simp [hxa, hxf]
          rw [List.filter_cons_of_pos (a := x) (l := t) d1,
            List.filter_cons_of_neg (a := x) (l := t) (by simp [d2]),
            List.filter_cons_of_pos (a := x) (l := t) d3, List.map_cons,
            List.sum_cons, List.map_cons, List.sum_cons, ih]
          ring
      · have d1 : (fun r => decide (r.account = a)) x = false := by simp [hxa]
        have d2 : (fun r => decide (r.account = a ∧ r.illq = true)) x = false := by
          simp [hxa]
        have d3 : (fun r => decide (r.account = a ∧ r.illq = false)) x = false := by
          simp [hxa]
        rw [List.filter_cons_of_neg (a := x) (l := t) (by simp [d1]),
          List.filter_cons_of_neg (a := x) (l := t) (by simp [d2]),
          List.filter_cons_of_neg (a := x) (l := t) (by simp [d3])]
        exact ih

/-- In a run with zero investable total and non-negative row values, every
non-illiquid row has value zero. -/
lemma value_zero_of_investable_zero {rows : List Row}
    (hti : totalInvestable rows = 0) (hvals : ∀ r ∈ rows, 0 ≤ r.value) :
    ∀ r ∈ rows, r.illq = false → r.value = 0 := by
  intro r hr hrillq
  have hra : r.account ∈ accountsOf rows :=
    mem_sortedDedupStr.mpr (List.mem_map.mpr ⟨r, hr, rfl⟩)
  have hinv0 : acctInvestable rows r.account = 0 := by
    have hnn : ∀ x ∈ (accountsOf rows).map (acctInvestable rows), 0 ≤ x := by
      intro x hx
      rw [List.mem_map] at hx
      obtain ⟨a, _, rfl⟩ := hx
      exact le_max_left 0 _
    have := all_zero_of_sum_nonpos hnn (le_of_eq hti)
    exact this _ (List.mem_map.mpr ⟨r.account, hra, rfl⟩)
  have hle : acctTotalVal rows r.account - acctIllqVal rows r.account ≤ 0 := by
    by_contra hpos
    rw [acctInvestable, max_eq_right (le_of_lt (lt_of_not_le hpos))] at hinv0
    exact hpos (le_of_eq hinv0)
  have hsplit := acct_value_split rows r.account
  have hsum : ((rows.filter
      (fun r2 => decide (r2.account = r.account ∧ r2.illq = false))).map
      (·.value)).sum ≤ 0 := by linarith
  have hnn2 : ∀ x ∈ (rows.filter
      (fun r2 => decide (r2.account = r.account ∧ r2.illq = false))).map (·.value),
      0 ≤ x := by
    intro x hx
    rw [List.mem_map] at hx
    obtain ⟨r2, hr2, rfl⟩ := hx
    exact hvals r2 (List.mem_of_mem_filter hr2)
  have hall := all_zero_of_sum_nonpos hnn2 hsum
  refine hall r.value (List.mem_map.mpr ⟨r, ?_, rfl⟩)
  exact List.mem_filter.mpr ⟨hr, by simp [hrillq]⟩

/-- In a run with zero investable total and non-negative row values, every
(account, sleeve) exposure is zero. -/
lemma exposure_zero_of_investable_zero {rows : List Row}
    (hti : totalInvestable rows = 0) (hvals : ∀ r ∈ rows, 0 ≤ r.value)
    (a s : String) : exposure rows a s = 0 := by
  unfold exposure
  apply List.sum_eq_zero
  intro x hx
  rw [List.mem_map] at hx
  obtain ⟨r, hr, rfl⟩ := hx
  have := List.of_mem_filter hr
  simp only [decide_eq_true_eq] at this
  exact value_zero_of_investable_zero hti hvals r (List.mem_of_mem_filter hr) this.2.2

/-- In such a run every per-(account, sleeve) delta is zero. -/
lemma deltaAS_zero_of_investable_zero {rows : List Row}
    (hti : totalInvestable rows = 0) (hvals : ∀ r ∈ rows, 0 ≤ r.value)
    (W : List (String × ℚ)) (s a : String) : deltaAS rows W s a = 0 := by
  unfold deltaAS invShare
  rw [if_neg (by rw [hti]; exact lt_irrefl 0)]
  rw [exposure_zero_of_investable_zero hti hvals a s]
  ring

/-- In such a run no raw trades are generated. -/
lemma rawTrades_nil_of_investable_zero {rows : List Row}
    (hti : totalInvestable rows = 0) (hvals : ∀ r ∈ rows, 0 ≤ r.value)
    (W : List (String × ℚ)) : rawTrades rows W = [] := by
  apply flatMap_eq_nil_of
  intro s _
  have hpos : posAccts rows W s = [] := by
    unfold posAccts
    have : (accountsOf rows).filter (fun a => decide (0 < deltaAS rows W s a)) = [] := by
      rw [List.filter_eq_nil_iff]
      intro a _
      simp [deltaAS_zero_of_investable_zero hti hvals W s a]
    rw [this]
    rfl
  have hneg : negAccts rows W s = [] := by
    unfold negAccts
    have : (accountsOf rows).filter (fun a => decide (deltaAS rows W s a < 0)) = [] := by
      rw [List.filter_eq_nil_iff]
      intro a _
      simp [deltaAS_zero_of_investable_zero hti hvals W s a]
    rw [this]
    rfl
  unfold sleeveTrades
  have hbuy : buyFor rows W s = none := by
    unfold buyFor
    cases hh : hostAcct rows s with
    | none => rfl
    | some h0 =>
        dsimp only
        rw [if_pos hpos]
  have hsell : sellsFor rows W s = [] := by
    unfold sellsFor sellCands
    rw [hneg]
    rfl
  rw [hbuy, hsell]
  rfl

/-- Claim C4, amended: if the clipped target weights sum to zero, the engine
returns an empty trade list and an empty residuals map without raising (it
returns before the sleeve loop); if the investable total is zero, every
derived holding Value is non-negative, and the sleeve loop does not raise
(every target sleeve is carried by some non-illiquid row, `engineRaises`
false), the run likewise completes with empty trades and residuals.  A
holding with negative Value can make a zero-investable run emit trades, and
a target sleeve with no non-illiquid holder makes the engine raise at
`cur_acct_sleeve.xs` instead of returning. -/
theorem claim_C4_amended (hs : List HoldingIn) (Win : List (String × ℚ)) (ctol : ℚ)
    (h : ((clipWeights Win).map (·.2)).sum ≤ 0 ∨
      (totalInvestable (rowsOf hs) = 0 ∧ (∀ r ∈ rowsOf hs, 0 ≤ r.value) ∧
        engineRaises hs Win = false)) :
    build_trades_checked hs Win ctol =
      Except.ok ([], rowsOf hs, ([] : List (String × ℚ))) := by
  have hnr : engineRaises hs Win = false := by
    rcases h with h1 | ⟨_, _, hnr⟩
    · unfold engineRaises
      rw [if_pos h1]
    · exact hnr
  have hbuild : build_trades_and_afterholdings hs Win ctol =
      ([], rowsOf hs, ([] : List (String × ℚ))) := by
    rcases h with h1 | ⟨hti, hvals, _⟩
    · simp [build_trades_and_afterholdings, h1]
    · have hraw := rawTrades_nil_of_investable_zero hti hvals (normW Win)
      by_cases h1 : ((clipWeights Win).map (·.2)).sum ≤ (0 : ℚ)
      · simp [build_trades_and_afterholdings, h1]
      · simp [build_trades_and_afterholdings, h1, hraw]
  unfold build_trades_checked
  rw [if_neg (by rw [hnr]; simp)]
  rw [hbuild]

/-! ### Concrete runs: counterexamples and witnesses.

The arithmetic in these inputs is exact in binary floating point, so the
Python engine and the exact-rational embedding agree on them.
-/

/-- Holdings for the C1 counterexample: one account, two priced ETFs, no
cash-like position. -/
def exC1 : List HoldingIn :=
  [{ account := "Brokerage", name := "Growth ETF", symbol := "IVW",
     quantity := 10, price := 100, averageCost := 50 },
   { account := "Brokerage", name := "Core ETF", symbol := "SCHB",
     quantity := 10, price := 100, averageCost := 100 }]

/-- Holdings for the C2 counterexample and the C1 / C2 / C6 witnesses: the
growth position is held at an average cost above its price. -/
def exC2 : List HoldingIn :=
  [{ account := "Brokerage", name := "Growth ETF", symbol := "IVW",
     quantity := 10, price := 100, averageCost := 200 },
   { account := "Brokerage", name := "Core ETF", symbol := "SCHB",
     quantity := 10, price := 100, averageCost := 100 }]

/-- Holdings for the C3 counterexample: a tax-exempt Roth account holds the
growth sleeve, but a taxable account holds more of it. -/
def exC3 : List HoldingIn :=
  [{ account := "Brokerage", name := "Growth ETF", symbol := "IVW",
     quantity := 10, price := 100, averageCost := 50 },
   { account := "Brokerage", name := "Agg Bond", symbol := "AGG",
     quantity := 10, price := 100, averageCost := 100 },
   { account := "My Roth IRA", name := "Growth ETF", symbol := "IVW",
     quantity := 2, price := 100, averageCost := 50 }]

/-- Holdings for the C4 counterexample: a short position makes the account
total zero (so the investable total is zero) while the core sleeve still
shows positive current dollars. -/
def exC4 : List HoldingIn :=
  [{ account := "Brokerage", name := "Core ETF", symbol := "SCHB",
     quantity := 10, price := 100, averageCost := 100 },
   { account := "Brokerage", name := "Agg Bond", symbol := "AGG",
     quantity := -10, price := 100, averageCost := 100 }]

/-- Holdings for the C4 witness: an illiquid position plus a zero-quantity
core position, so the investable total is zero, every Value is non-negative,
and the target sleeve is still carried by a non-illiquid row. -/
def exC4w : List HoldingIn :=
  [{ account := "Brokerage", name := "AUTOMATTIC INC", symbol := "AUTOMATTIC",
     quantity := 1, price := 1000, averageCost := 1000 },
   { account := "Brokerage", name := "Core ETF", symbol := "SCHB",
     quantity := 0, price := 100, averageCost := 100 }]

/-- Holdings exercising the exception path: the only row is illiquid, so the
target sleeve has no non-illiquid holder and the sleeve loop raises. -/
def exC4r : List HoldingIn :=
  [{ account := "Brokerage", name := "AUTOMATTIC INC", symbol := "AUTOMATTIC",
     quantity := 1, price := 1000, averageCost := 1000 }]

/-- Holdings for the C6 counterexample: the provided Value column disagrees
with Quantity × Price. -/
def exC6 : List HoldingIn :=
  [{ account := "Brokerage", name := "Core ETF", symbol := "SCHB",
     quantity := 10, price := 100, averageCost := 100, value? := some 999 }]

/-- Holdings copy used by the C6 witness. -/
def exC6w : List HoldingIn :=
  [{ account := "Brokerage", name := "Growth ETF", symbol := "IVW",
     quantity := 10, price := 100, averageCost := 200 },
   { account := "Brokerage", name := "Core ETF", symbol := "SCHB",
     quantity := 10, price := 100, averageCost := 100 }]

/-- Holdings copy used by the C8 witness. -/
def exC8 : List HoldingIn :=
  [{ account := "Brokerage", name := "Growth ETF", symbol := "IVW",
     quantity := 10, price := 100, averageCost := 50 },
   { account := "Brokerage", name := "Core ETF", symbol := "SCHB",
     quantity := 10, price := 100, averageCost := 100 }]

/-- Holdings for the C10 counterexample-free witness: the same identifier is
held at two different prices in two accounts, so the trade price is the
median rather than either row's own price. -/
def exC10 : List HoldingIn :=
  [{ account := "A", name := "Growth ETF", symbol := "IVW",
     quantity := 10, price := 90, averageCost := 50 },
   { account := "B", name := "Growth ETF", symbol := "IVW",
     quantity := 10, price := 110, averageCost := 50 },
   { account := "B", name := "Agg Bond", symbol := "AGG",
     quantity := 10, price := 100, averageCost := 100 }]

/-- Zero-quantity holdings row for the C7 counterexample. -/
def rxC7 : Row :=
  { account := "A", name := "X", symbol := "X", quantity := 0, price := 10,
    averageCost := 1, value := 0, cost := 0, taxStatus := "Taxable",
    sleeve := "US_Core", illq := false }

/-- Zero-delta trade for the C7 counterexample. -/
def txC7 : Trade :=
  { account := "A", taxStatus := "Taxable", identifier := "X", sleeve := "US_Core",
    action := "BUY", sharesDelta := 0, price := 10, averageCost := 1,
    deltaDollars := 0, capGain := 0 }

/-- Well-formed holdings row for the C7 witness. -/
def rwC7 : Row :=
  { account := "A", name := "X", symbol := "X", quantity := 5, price := 10,
    averageCost := 1, value := 50, cost := 5, taxStatus := "Taxable",
    sleeve := "US_Core", illq := false }

/-- Zero-delta trade for the C7 witness. -/
def twC7 : Trade :=
  { account := "A", taxStatus := "Taxable", identifier := "X", sleeve := "US_Core",
    action := "BUY", sharesDelta := 0, price := 10, averageCost := 1,
    deltaDollars := 0, capGain := 0 }

/-- The capped SELL row of the `exC2` run, used by the C1 witness. -/
def twC1 : Trade :=
  { account := "Brokerage", taxStatus := "Taxable", identifier := "IVW",
    sleeve := "US_Growth", action := "SELL", sharesDelta := -5, price := 100,
    averageCost := 200, deltaDollars := -500, capGain := 0 }

/-- The capped SELL row of the `exC2` run, used by the C2 witness. -/
def twC2 : Trade :=
  { account := "Brokerage", taxStatus := "Taxable", identifier := "IVW",
    sleeve := "US_Growth", action := "SELL", sharesDelta := -5, price := 100,
    averageCost := 200, deltaDollars := -500, capGain := 0 }

/-- The consolidated BUY row of the `exC3` run, used by the C3 witness. -/
def twC3 : Trade :=
  { account := "Brokerage", taxStatus := "Taxable", identifier := "IVW",
    sleeve := "US_Growth", action := "BUY", sharesDelta := 10, price := 100,
    averageCost := 50, deltaDollars := 1000, capGain := 0 }

/-- A holdings-after row of the `exC6w` run, used by the C6 witness. -/
def rwC6 : Row :=
  { account := "Brokerage", name := "Growth ETF", symbol := "IVW", quantity := 5,
    price := 100, averageCost := 200, value := 500, cost := 1000,
    taxStatus := "Taxable", sleeve := "US_Growth", illq := false }

/-- The BUY row of the `exC10` run, used by the C10 witness. -/
def twC10 : Trade :=
  { account := "B", taxStatus := "Taxable", identifier := "IVW",
    sleeve := "US_Growth", action := "BUY", sharesDelta := 10, price := 100,
    averageCost := 50, deltaDollars := 1000, capGain := 0 }

section ConcreteProofs

attribute [local semireducible] Rat.add Rat.mul Rat.sub Rat.inv

set_option maxRecDepth 40000

/-- Claim C1, counterexample: the `exC1` run emits a corrective cash SELL of
1000 BIL shares in an account that holds no BIL at all, so a returned sell's
magnitude can exceed the shares held. -/
theorem claim_C1_counterexample :
    ∃ t ∈ txOf exC1 [("US_Growth", 1)] 100,
      t.sharesDelta < 0 ∧
        heldQty (rowsOf exC1) t.account t.identifier < |t.sharesDelta| := by
  decide

/-- Claim C1, witness: the sleeve SELL of the `exC2` run is capped by the
shares held. -/
theorem claim_C1_witness :
    |twC1.sharesDelta| ≤ heldQty (rowsOf exC2) twC1.account twC1.identifier :=
  claim_C1_amended exC2 [("US_Growth", 1/4), ("US_Core", 3/4)] 100 twC1
    (by decide) (by decide) (by decide)

/-- Claim C2, counterexample: the `exC2` run sells at a loss (price 100,
average cost 200) and reports CapGain_Dollars 0 rather than the claimed
(Price − AverageCost) × |SharesDelta| = −500. -/
theorem claim_C2_counterexample :
    ∃ t ∈ txOf exC2 [("US_Growth", 1/4), ("US_Core", 3/4)] 100,
      t.action = "SELL" ∧
        t.capGain ≠ (t.price - t.averageCost) * |t.sharesDelta| := by
  decide

/-- Claim C2, witness: the amended CapGain law instantiated on the SELL row
of the `exC2` run. -/
theorem claim_C2_witness :
    ∃ s0 : ℚ, |twC2.sharesDelta| ≤ s0 ∧
      s0 ≤ heldQty (rowsOf exC2) twC2.account twC2.identifier ∧
      twC2.capGain =
        (if twC2.averageCost < twC2.price then (twC2.price - twC2.averageCost) * s0
         else 0) :=
  claim_C2_amended exC2 [("US_Growth", 1/4), ("US_Core", 3/4)] 100 twC2
    (by decide) (by decide) (by decide)

/-- Claim C3, counterexample: in the `exC3` run a tax-exempt Roth account
holds the growth sleeve, yet the pooled BUY is placed in the taxable account
with the larger exposure and the Roth account trades nothing — the choice is
not tax-exempt-first. -/
theorem claim_C3_counterexample :
    assign_tax_status "My Roth IRA" = "ROTH IRA" ∧
      assign_tax_status "Brokerage" = "Taxable" ∧
      0 < exposure (rowsOf exC3) "My Roth IRA" "US_Growth" ∧
      (∃ t ∈ txOf exC3 [("US_Growth", 1)] 100,
        t.action = "BUY" ∧ t.sleeve = "US_Growth" ∧ t.account = "Brokerage") ∧
      (∀ t ∈ txOf exC3 [("US_Growth", 1)] 100, t.account ≠ "My Roth IRA") := by
  decide

/-- Claim C3, witness: the amended host-choice law instantiated on the BUY
row of the `exC3` run. -/
theorem claim_C3_witness :
    (∀ t' ∈ txOf exC3 [("US_Growth", 1)] 100,
        t'.action = "BUY" → t'.sleeve = twC3.sleeve → t' = twC3) ∧
      ((∃ a, 0 < exposure (rowsOf exC3) a twC3.sleeve) →
        ∀ a, exposure (rowsOf exC3) a twC3.sleeve ≤
          exposure (rowsOf exC3) twC3.account twC3.sleeve) ∧
      ((∀ a, exposure (rowsOf exC3) a twC3.sleeve ≤ 0) →
        ∀ a ∈ accountsOf (rowsOf exC3),
          acctInvestable (rowsOf exC3) a ≤ acctInvestable (rowsOf exC3) twC3.account) :=
  claim_C3_amended exC3 [("US_Growth", 1)] 100 twC3 (by decide) (by decide) (by decide)

/-- Claim C4, counterexample: a holdings table with a short (negative-value)
row has investable total zero yet the run emits trades, so the claim fails
as stated for arbitrary holdings. -/
theorem claim_C4_counterexample :
    totalInvestable (rowsOf exC4) = 0 ∧ txOf exC4 [("US_Core", 1)] 100 ≠ [] := by
  decide

/-- Claim C4, witness: a zero-investable run with non-negative values whose
target sleeve is carried by a non-illiquid row completes with empty trades
and residuals. -/
theorem claim_C4_witness :
    build_trades_checked exC4w [("US_Core", 1)] 100 =
      Except.ok ([], rowsOf exC4w, ([] : List (String × ℚ))) :=
  claim_C4_amended exC4w [("US_Core", 1)] 100
    (Or.inr ⟨by decide, by decide, by decide⟩)

/-- The exception guard of `build_trades_checked` is live: with a single
illiquid holding the investable total is zero and all values non-negative,
yet the run raises at engine line 270 because the target sleeve has no
non-illiquid holder — the case that bounds claim C4. -/
theorem engineRaises_unheld_sleeve :
    totalInvestable (rowsOf exC4r) = 0 ∧ (∀ r ∈ rowsOf exC4r, 0 ≤ r.value) ∧
      engineRaises exC4r [("US_Core", 1)] = true ∧
      build_trades_checked exC4r [("US_Core", 1)] 100 =
        Except.error "cur_acct_sleeve.xs: sleeve not held by any non-illiquid row" := by
  refine ⟨by decide, by decide, by decide, ?_⟩
  unfold build_trades_checked
  rw [if_pos (by decide)]

/-- Claim C5, witness: the consolidation law instantiated on the `exC1`
run. -/
theorem claim_C5_witness :
    (∀ t ∈ txOf exC1 [("US_Growth", 1)] 100,
        ∀ t' ∈ txOf exC1 [("US_Growth", 1)] 100,
          t.account = t'.account → t.taxStatus = t'.taxStatus →
            t.identifier = t'.identifier → t.sleeve = t'.sleeve → t = t') ∧
      ∀ t ∈ txOf exC1 [("US_Growth", 1)] 100,
        t.action = if 0 ≤ t.sharesDelta then "BUY" else "SELL" :=
  claim_C5_consolidated exC1 [("US_Growth", 1)] 100

/-- Claim C6, counterexample: a degenerate-weights run returns the enriched
input table as holdings-after, carrying a provided Value (999) that differs
from Quantity × Price (1000). -/
theorem claim_C6_counterexample :
    txOf exC6 [] 100 = [] ∧
      ∃ r ∈ afterHoldings exC6 [] 100, r.value ≠ r.quantity * r.price := by
  decide

/-- Claim C6, witness: the recomputed-Value law instantiated on a
holdings-after row of the trade-emitting `exC6w` run. -/
theorem claim_C6_witness :
    rwC6.value = rwC6.quantity * rwC6.price ∧
      rwC6.cost = rwC6.quantity * rwC6.averageCost :=
  claim_C6_amended exC6w [("US_Growth", 1/4), ("US_Core", 3/4)] 100 (by decide)
    rwC6 (by decide)

/-- Claim C7, counterexample: applying an all-zero trade list to a table
containing a zero-quantity row drops that row (the 1e-6 dust filter), so the
result is not identical to the input. -/
theorem claim_C7_counterexample :
    (∀ t ∈ [txC7], t.sharesDelta = 0) ∧
      apply_trades_to_holdings [rxC7] [txC7] ≠ [rxC7] := by
  decide

/-- Claim C7, witness: with all quantities above the dust threshold and
consistent Values, an all-zero trade list leaves holdings unchanged. -/
theorem claim_C7_witness :
    apply_trades_to_holdings [rwC7] [twC7] = [rwC7] :=
  claim_C7_amended [rwC7] [twC7] (by decide) (by decide) (by decide)

/-- Claim C8, witness: determinism instantiated on the `exC8` run. -/
theorem claim_C8_witness :
    txOf exC8 [("US_Growth", 1)] 100 = txOf exC8 [("US_Growth", 1)] 100 :=
  claim_C8_determinism exC8 exC8 [("US_Growth", 1)] [("US_Growth", 1)] 100 100
    rfl rfl rfl

/-- Claim C9, counterexample: SCHB is in the explicit identifier table
(mapped to US_Core), yet a name carrying the issuer marker forces the
illiquid sleeve — the table is not checked first. -/
theorem claim_C9_counterexample :
    map_sleeve "SCHB" "AUTOMATTIC INC" = "Illiquid_Automattic" ∧
      List.lookup (upStrip "SCHB") MAP_TO_SLEEVE = some "US_Core" ∧
      ("Illiquid_Automattic" : String) ≠ "US_Core" := by
  decide

/-- Claim C9, witness: a marker-free tabled identifier maps to its table
sleeve regardless of the rest of the name. -/
theorem claim_C9_witness :
    map_sleeve " schb" "Schwab US Broad Market" = "US_Core" :=
  claim_C9_amended " schb" "Schwab US Broad Market" "US_Core" (by decide) (by decide)

/-- Claim C10, witness: the BUY of the `exC10` run is priced at the
portfolio-wide median (100) of the identifier's row prices (90 and 110),
not at the trading account's own row price (110). -/
theorem claim_C10_witness :
    twC10.price = medianQ (identPrices (rowsOf exC10) twC10.identifier) :=
  claim_C10_median_price exC10 [("US_Growth", 1)] 100 twC10 (by decide) (by decide)

end ConcreteProofs

end TradeList
